import Mathlib

/-!
Verification model of the link_checker crawl engine: `shared.ts`
(`getResourceIdentityFromURL`), `crawler.ts` (`enqueueURLIfNeeded`,
`processWorkItemAsync`, `CrawlerCore.crawlAsync`), `task_queue.ts`
(`TaskQueue.drain`) and `checker.ts` (`LinkChecker.checkLinksAsync`).

Modelling choices:
* JS `URL` objects are modelled by their serialized components; the runtime
  primitive `new URL(href, base)` (WHATWG reference resolution, not part of
  this repository) is passed in explicitly as a `resolve` function, returning
  `none` when the constructor throws.
* The handler functions `getContentTypeAsync` and `readTextAsync` are total
  functions into `FetchResult`: `notFound` stands for any ordinary rejection
  and `permissionDenied` for `Deno.errors.PermissionDenied`.
* The task queue is modelled at its default concurrency `maxConcurrency = 1`,
  under which work items run sequentially, in FIFO order, each to completion.
  Handler rejections are swallowed by `drain` (the `try`/`catch` that ignores
  errors around `await Promise.race(this.running)` in `task_queue.ts`); a
  rejection is surfaced in the model as the second component of
  `processWorkItemAsync`, which `drainTaskQueue` discards exactly as the
  source does.
* The fuel argument of `drainTaskQueue` bounds the number of work items
  processed; the termination theorem shows an explicit sufficient bound.
* The state carries a ghost `fetchLog` recording every invocation of the two
  access handlers, used to state that a resource was (or was not) fetched.
-/

namespace LinkCheckerModel

/-- Model of a JS `URL` object by its serialized components: `href` is
`protocol ++ core ++ query ++ hash`; `protocol` includes the trailing colon
(as JS `url.protocol` does), `query` is empty or starts with `?`, and `hash`
is empty or starts with `#` (as JS `url.hash`, which is `""` when there is no
fragment). -/
structure URL where
  protocol : String
  core : String
  query : String
  hash : String
deriving DecidableEq

/-- JS `url.href`: the full serialization. -/
def URL.href (u : URL) : String :=
  u.protocol ++ u.core ++ u.query ++ u.hash

/-- `shared.ts` `getResourceIdentityFromURL`: if `url.hash` is truthy, return
a copy of the URL with the fragment cleared, else return the URL itself. -/
def getResourceIdentityFromURL (url : URL) : URL :=
  if url.hash = "" then url else { url with hash := "" }

/-- JS `String.prototype.startsWith`. -/
def strStartsWith (s pre : String) : Bool :=
  pre.data.isPrefixOf s.data

/-- Characters of `s.substring(0, s.lastIndexOf "/" + 1)`: the prefix up to
and including the last slash, empty when there is no slash. -/
def takeThroughLastSlash : List Char → List Char
  | [] => []
  | c :: rest =>
    if rest.contains '/' then c :: takeThroughLastSlash rest
    else if c = '/' then [c] else []

/-- `crawler.ts` `getBaseFromURL`: the href up to and including its last
slash. -/
def getBaseFromURL (url : URL) : String :=
  String.mk (takeThroughLastSlash url.href.data)

/-- Characters before the first semicolon. -/
def takeUntilSemicolon : List Char → List Char
  | [] => []
  | c :: rest => if c = ';' then [] else c :: takeUntilSemicolon rest

/-- Group 1 of `contentTypeShortPattern` in `crawler.ts`
(the regular expression matching everything before the first `;`): the
content type with any parameters stripped. -/
def contentTypeShortOf (s : String) : String :=
  String.mk (takeUntilSemicolon s.data)

/-- JS `hash.substring(1)`: drops the leading `#` of a fragment. -/
def dropFirstChar (s : String) : String :=
  String.mk (s.data.drop 1)

/-- Result of one access-handler call: `ok`, an ordinary rejection
(`Deno.errors.NotFound` or any other non-permission error), or
`Deno.errors.PermissionDenied`. -/
inductive FetchResult (α : Type) where
  | ok (value : α)
  | notFound
  | permissionDenied
deriving DecidableEq

/-- `shared.ts` `ContentTypeParserContext`. -/
structure ContentTypeParserContext where
  content : String
  recordIds : Bool

/-- `shared.ts` `ContentTypeParserResult`; the JS `Set<string>` of ids is
modelled as an insertion-ordered list queried by membership. -/
structure ContentTypeParserResult where
  hrefs : List String
  ids : List String
deriving DecidableEq

/-- `shared.ts` `ContentTypeParser`, modelled as a total function (the
tokenizers registered in this repository do not reject). -/
def ContentTypeParserFn : Type := ContentTypeParserContext → ContentTypeParserResult

/-- `crawler.ts` `CrawlHandlers`: the access collaborator plus the registry
of parsers keyed by short content type. -/
structure CrawlHandlers where
  getContentTypeAsync : URL → FetchResult String
  readTextAsync : URL → FetchResult String
  contentTypeParsers : List (String × ContentTypeParserFn)

/-- The JS runtime primitive `new URL(href, base)`: reference resolution,
`none` when the constructor throws. -/
def ResolveURL : Type := String → URL → Option URL

/-- `crawler.ts` `ResourceLink`. -/
structure ResourceLink where
  canonicalURL : URL
  originalHrefString : String
deriving DecidableEq

/-- `crawler.ts` internal `Resource` record. -/
structure Resource where
  url : URL
  depth : Nat
  internal : Bool
  contentType : Option String
  links : Option (List ResourceLink)
  ids : Option (List String)
deriving DecidableEq

/-- The `externalLinks` option values. -/
inductive ExternalLinksMode where
  | ignore
  | check
  | follow
deriving DecidableEq

/-- `crawler.ts` `CrawlOptions`; absent fields are `none`, and `depth` and
`maxConcurrency` are JS numbers (modelled as integers; an absent `depth`
means `Infinity`). -/
structure CrawlOptions where
  base : Option URL := none
  externalLinks : Option ExternalLinksMode := none
  recordsIds : Option Bool := none
  maxConcurrency : Option Int := none
  depth : Option Int := none

/-- The option-derived part of the crawl `Context`. -/
structure CrawlConfig where
  base : String
  checkExternalLinks : Bool
  followExternalLinks : Bool
  recordIds : Bool
  maxDepth : Option Int
deriving DecidableEq

/-- Which access handler was invoked (ghost instrumentation). -/
inductive FetchKind where
  | contentType
  | readText
deriving DecidableEq

/-- The mutable part of the crawl `Context`: the resource table (a JS `Map`,
modelled as an insertion-ordered association list), the pending work-item
queue, the parse-error table, and the ghost log of handler invocations. -/
structure CrawlState where
  resources : List (String × Resource)
  queue : List String
  parseErrors : List (String × String)
  fetchLog : List (FetchKind × String)
deriving DecidableEq

def emptyCrawlState : CrawlState := ⟨[], [], [], []⟩

/-- JS `Map.prototype.get` on an insertion-ordered association list. -/
def lookupKey {α : Type} : List (String × α) → String → Option α
  | [], _ => none
  | (k, v) :: rest, key => if k = key then some v else lookupKey rest key

/-- JS `Map.prototype.has`. -/
def containsKey {α : Type} (m : List (String × α)) (key : String) : Bool :=
  (lookupKey m key).isSome

/-- Replace the value at `key` (first occurrence) in place. -/
def updateKey {α : Type} (f : α → α) : List (String × α) → String → List (String × α)
  | [], _ => []
  | (k, v) :: rest, key =>
    if k = key then (k, f v) :: rest else (k, v) :: updateKey f rest key

/-- JS `Map.prototype.set`: replace in place if present, else append. -/
def setKey {α : Type} (m : List (String × α)) (key : String) (v : α) : List (String × α) :=
  if containsKey m key then updateKey (fun _ => v) m key else m ++ [(key, v)]

/-- JS `depth <= maxDepth` where an absent `maxDepth` is `Infinity`. -/
def depthLeMax (maxDepth : Option Int) (d : Nat) : Bool :=
  match maxDepth with
  | none => true
  | some m => decide ((d : Int) ≤ m)

/-- JS `depth < maxDepth` where an absent `maxDepth` is `Infinity`. -/
def depthLtMax (maxDepth : Option Int) (d : Nat) : Bool :=
  match maxDepth with
  | none => true
  | some m => decide ((d : Int) < m)

/-- `crawler.ts` `enqueueURLIfNeeded`: within the depth bound, canonicalize,
classify internal by literal prefix against the base, and if eligible and not
already in the resource table, insert a fresh record and enqueue a work
item. -/
def enqueueURLIfNeeded (urlWithFragment : URL) (cfg : CrawlConfig) (st : CrawlState)
    (depth : Nat) : CrawlState :=
  if depthLeMax cfg.maxDepth depth then
    let url := getResourceIdentityFromURL urlWithFragment
    let href := url.href
    let internal := strStartsWith url.href cfg.base
    let shouldCheck := internal || cfg.checkExternalLinks
    if shouldCheck && !containsKey st.resources href then
      { st with
        resources := st.resources ++ [(href, ⟨url, depth, internal, none, none, none⟩)]
        queue := st.queue ++ [href] }
    else st
  else st

/-- `crawler.ts` `allowedProtocols`. -/
def allowedProtocols : List String := ["file:", "http:", "https:"]

/-- Set the `contentType` of the resource at `key`. -/
def setResourceContentType (key : String) (ct : Option String) (st : CrawlState) : CrawlState :=
  { st with resources := updateKey (fun r => { r with contentType := ct }) st.resources key }

/-- Set the `links` of the resource at `key`. -/
def setResourceLinks (key : String) (ls : Option (List ResourceLink)) (st : CrawlState) : CrawlState :=
  { st with resources := updateKey (fun r => { r with links := ls }) st.resources key }

/-- `links.push(...)` on the resource at `key`. -/
def appendResourceLink (key : String) (l : ResourceLink) (st : CrawlState) : CrawlState :=
  { st with
    resources := updateKey (fun r => { r with links := some (r.links.getD [] ++ [l]) }) st.resources key }

/-- Set the `ids` of the resource at `key`. -/
def setResourceIds (key : String) (ids : Option (List String)) (st : CrawlState) : CrawlState :=
  { st with resources := updateKey (fun r => { r with ids := ids }) st.resources key }

/-- Ghost instrumentation: record an invocation of an access handler. -/
def logFetch (kind : FetchKind) (u : URL) (st : CrawlState) : CrawlState :=
  { st with fetchLog := st.fetchLog ++ [(kind, u.href)] }

/-- `context.parseErrors.set(resource.url.href, error.toString())`; the
message text is a fixed stand-in for the JS error string. -/
def recordParseError (key msg : String) (st : CrawlState) : CrawlState :=
  { st with parseErrors := setKey st.parseErrors key msg }

/-- `handlers.contentTypeParsers[contentTypeShort]`. -/
def lookupContentTypeParser (handlers : CrawlHandlers) (short : String) :
    Option ContentTypeParserFn :=
  lookupKey handlers.contentTypeParsers short

/-- Rejection of a work-item promise: a rethrown
`Deno.errors.PermissionDenied`, or the internal assertion (`CrawlError`)
thrown before the `try` when the href is not in the resource table. -/
inductive Rejection where
  | permissionDenied
  | internalError
deriving DecidableEq

/-- The href loop at the end of `processWorkItemAsync`: resolve each raw
reference against the resource URL; references with a supported protocol are
pushed onto the links list and passed to `enqueueURLIfNeeded` at
`depth + 1`; others are skipped.  Returns `false` when `new URL(href, base)`
throws, which aborts the loop (the error is caught by the outer catch). -/
def processLinks (resolve : ResolveURL) (cfg : CrawlConfig) (key : String) (baseURL : URL)
    (depth : Nat) : List String → CrawlState → CrawlState × Bool
  | [], st => (st, true)
  | href :: rest, st =>
    match resolve href baseURL with
    | none => (st, false)
    | some url =>
      if allowedProtocols.contains url.protocol then
        processLinks resolve cfg key baseURL depth rest
          (enqueueURLIfNeeded url cfg (appendResourceLink key ⟨url, href⟩ st) (depth + 1))
      else
        processLinks resolve cfg key baseURL depth rest st

/-- The part of `processWorkItemAsync` after the content-type lookup:
choose a parser (an empty short content type is falsy and selects none),
test the parse policy, read the text, run the parser, process the extracted
references, and record ids when requested. -/
def processAfterContentType (handlers : CrawlHandlers) (resolve : ResolveURL)
    (cfg : CrawlConfig) (href : String) (resource : Resource) (short : Option String)
    (st : CrawlState) : CrawlState × Option Rejection :=
  let parseFn : Option ContentTypeParserFn :=
    match short with
    | none => none
    | some s => if s = "" then none else lookupContentTypeParser handlers s
  match parseFn with
  | none => (st, none)
  | some p =>
    if (resource.internal || cfg.followExternalLinks)
        && depthLtMax cfg.maxDepth resource.depth then
      let st1 := logFetch .readText resource.url st
      match handlers.readTextAsync resource.url with
      | .permissionDenied => (st1, some .permissionDenied)
      | .notFound => (setResourceContentType href none st1, none)
      | .ok content =>
        let pr := p ⟨content, cfg.recordIds⟩
        let st2 := setResourceLinks href (some []) st1
        match processLinks resolve cfg href resource.url resource.depth pr.hrefs st2 with
        | (st3, true) =>
          (if cfg.recordIds then setResourceIds href (some pr.ids) st3 else st3, none)
        | (st3, false) =>
          (recordParseError href "TypeError: Invalid URL" st3, none)
    else (st, none)

/-- `crawler.ts` `processWorkItemAsync`.  The second component models the
returned promise rejecting: permission errors are rethrown by every catch;
an ordinary content-type failure clears `contentType` and continues; an
ordinary read failure clears `contentType` and skips parsing. -/
def processWorkItemAsync (handlers : CrawlHandlers) (resolve : ResolveURL)
    (cfg : CrawlConfig) (href : String) (st : CrawlState) : CrawlState × Option Rejection :=
  match lookupKey st.resources href with
  | none => (st, some .internalError)
  | some resource =>
    let st0 := logFetch .contentType resource.url st
    match handlers.getContentTypeAsync resource.url with
    | .permissionDenied => (st0, some .permissionDenied)
    | .notFound =>
      processAfterContentType handlers resolve cfg href resource none
        (setResourceContentType href none st0)
    | .ok ct =>
      processAfterContentType handlers resolve cfg href resource
        (some (contentTypeShortOf ct)) (setResourceContentType href (some ct) st0)

/-- `task_queue.ts` `TaskQueue.drain` at the default `maxConcurrency = 1`:
repeatedly pop the next pending work item (FIFO) and run its handler to
completion, until the queue is empty; handler rejections are swallowed (the
catch around `Promise.race`).  Fuel-indexed; the termination theorem gives a
sufficient fuel bound. -/
def drainTaskQueue (handlers : CrawlHandlers) (resolve : ResolveURL) (cfg : CrawlConfig) :
    Nat → CrawlState → CrawlState
  | 0, st => st
  | fuel + 1, st =>
    match st.queue with
    | [] => st
    | href :: rest =>
      drainTaskQueue handlers resolve cfg fuel
        (processWorkItemAsync handlers resolve cfg href { st with queue := rest }).1

/-- The errors `crawlAsync` can throw before processing: the two
`CrawlError` configuration checks and the `TaskQueueError` thrown by the
`TaskQueue` constructor for a non-positive `maxConcurrency`. -/
inductive CrawlFailure where
  | baseMismatch
  | entryOutsideBase
  | badMaxConcurrency
deriving DecidableEq

/-- `options?.base?.href ?? getBaseFromURL(urls[0])`. -/
def derivedBase (options : CrawlOptions) (first : URL) : String :=
  match options.base with
  | some b => b.href
  | none => getBaseFromURL first

/-- The first startup check: multiple entry points, no explicit base, and
some entry point with a different derived base. -/
def hasBaseMismatch (options : CrawlOptions) (urls : List URL) (first : URL) : Bool :=
  decide (urls.length > 1) && options.base.isNone
    && urls.any (fun u => getBaseFromURL u != derivedBase options first)

/-- The second startup check: an explicit base and some entry point whose
href does not start with it. -/
def hasEntryOutsideBase (options : CrawlOptions) (urls : List URL) (first : URL) : Bool :=
  options.base.isSome && urls.any (fun u => !strStartsWith u.href (derivedBase options first))

/-- The `TaskQueue` constructor check: `maxConcurrency <= 0` (default 1). -/
def hasBadMaxConcurrency (options : CrawlOptions) : Bool :=
  decide (options.maxConcurrency.getD 1 ≤ 0)

/-- Build the option-derived `Context` fields exactly as
`CrawlerCore.crawlAsync` does. -/
def mkCrawlConfig (base : String) (options : CrawlOptions) : CrawlConfig :=
  let externalLinks := options.externalLinks.getD .ignore
  { base := base
    checkExternalLinks :=
      match externalLinks with
      | .check => true
      | .follow => true
      | .ignore => false
    followExternalLinks :=
      match externalLinks with
      | .follow => true
      | _ => false
    recordIds := options.recordsIds.getD false
    maxDepth := options.depth }

/-- The seeding loop of `crawlAsync`: enqueue every entry point at depth 0. -/
def seedCrawlState (cfg : CrawlConfig) (urls : List URL) : CrawlState :=
  urls.foldl (fun st u => enqueueURLIfNeeded u cfg st 0) emptyCrawlState

/-- `CrawlerCore.crawlAsync` up to (but not including) the final projection
to the public collection: empty input returns an empty map immediately; the
startup checks run in source order before any state is created; then the
entry points are enqueued and the task queue drained. -/
def crawlAsyncFull (handlers : CrawlHandlers) (resolve : ResolveURL) (urls : List URL)
    (options : CrawlOptions) (fuel : Nat) : Except CrawlFailure CrawlState :=
  match urls with
  | [] => .ok emptyCrawlState
  | first :: _ =>
    if hasBaseMismatch options urls first then .error .baseMismatch
    else if hasEntryOutsideBase options urls first then .error .entryOutsideBase
    else if hasBadMaxConcurrency options then .error .badMaxConcurrency
    else
      let cfg := mkCrawlConfig (derivedBase options first) options
      .ok (drainTaskQueue handlers resolve cfg fuel (seedCrawlState cfg urls))

/-- `crawler.ts` public `ResourceInfo`. -/
structure ResourceInfo where
  contentType : Option String
  links : Option (List ResourceLink)
  ids : Option (List String)
deriving DecidableEq

/-- The per-resource projection at the end of `crawlAsync` (the `links` and
`ids` keys are present exactly when set, and an array or `Set` is truthy
even when empty). -/
def projectResource (r : Resource) : ResourceInfo :=
  ⟨r.contentType, r.links, r.ids⟩

/-- The output mapping loop of `crawlAsync`, in insertion order. -/
def projectCollection (st : CrawlState) : List (String × ResourceInfo) :=
  st.resources.map (fun p => (p.1, projectResource p.2))

/-- `CrawlerCore.crawlAsync`: the full crawl, projected to the public
resource collection. -/
def crawlAsync (handlers : CrawlHandlers) (resolve : ResolveURL) (urls : List URL)
    (options : CrawlOptions) (fuel : Nat) : Except CrawlFailure (List (String × ResourceInfo)) :=
  (crawlAsyncFull handlers resolve urls options fuel).map projectCollection

/-- `checker.ts` `CheckLinksOptions`. -/
structure CheckLinksOptions where
  base : Option URL := none
  checkExternalLinks : Option Bool := none
  checkFragments : Option Bool := none
  maxConcurrency : Option Int := none

/-- `checker.ts` `Link`. -/
structure Link where
  source : String
  target : String
  href : String
deriving DecidableEq

/-- `checker.ts` `CheckLinksResult`. -/
structure CheckLinksResult where
  brokenLinks : List Link
deriving DecidableEq

/-- JS falsiness of an optional string: `undefined` and `""` are falsy. -/
def jsFalsyString : Option String → Bool
  | none => true
  | some s => s == ""

/-- The per-link broken test inside `checkLinksAsync` (current version):
a link is broken when its target is in the collection with a falsy content
type; otherwise, when fragment checking is on, the original reference has a
fragment AND the target record has an `ids` set, the link is broken when the
set lacks the fragment. -/
def isBrokenLink (checkFragments : Bool) (collection : List (String × ResourceInfo))
    (link : ResourceLink) : Bool :=
  let targetResource := (getResourceIdentityFromURL link.canonicalURL).href
  match lookupKey collection targetResource with
  | none => false
  | some targetResourceInfo =>
    let broken := jsFalsyString targetResourceInfo.contentType
    if checkFragments && !broken && !(link.canonicalURL.hash == "")
        && targetResourceInfo.ids.isSome then
      !((targetResourceInfo.ids.getD []).contains (dropFirstChar link.canonicalURL.hash))
    else
      broken

/-- The broken-link accumulation loop of `checkLinksAsync`, in discovery
order, without dedup. -/
def computeBrokenLinks (checkFragments : Bool)
    (collection : List (String × ResourceInfo)) : List Link :=
  collection.foldl (fun acc p =>
    match p.2.links with
    | none => acc
    | some links =>
      links.foldl (fun acc2 link =>
        if isBrokenLink checkFragments collection link then
          acc2 ++ [⟨p.1, link.canonicalURL.href, link.originalHrefString⟩]
        else acc2) acc) []

/-- Declarative form of the broken-link loop: per source resource, the
broken sublist of its links. -/
def brokenLinksSpec (checkFragments : Bool)
    (collection : List (String × ResourceInfo)) : List Link :=
  collection.flatMap (fun p =>
    ((p.2.links.getD []).filter (fun l => isBrokenLink checkFragments collection l)).map
      (fun l => ⟨p.1, l.canonicalURL.href, l.originalHrefString⟩))

/-- `checker.ts` `LinkChecker.checkLinksAsync`: run the crawl with
`externalLinks` mapped from the truthiness of `checkExternalLinks` and
`recordsIds` set to the raw `checkFragments` value, then walk the collection
for broken links. -/
def checkLinksAsync (handlers : CrawlHandlers) (resolve : ResolveURL) (urls : List URL)
    (options : CheckLinksOptions) (fuel : Nat) : Except CrawlFailure CheckLinksResult :=
  let checkFragments := options.checkFragments
  (crawlAsync handlers resolve urls
    { base := options.base
      externalLinks := some (if options.checkExternalLinks.getD false then .check else .ignore)
      recordsIds := checkFragments
      maxConcurrency := options.maxConcurrency
      depth := none } fuel).map
    (fun collection => ⟨computeBrokenLinks (checkFragments.getD false) collection⟩)

/-- All canonical keys that processing a resource at `u` can enqueue: the
successfully resolved references extracted by the registered parser from the
fetched content (an overapproximation that ignores the protocol and policy
gates). -/
def resourceLinkKeys (handlers : CrawlHandlers) (resolve : ResolveURL) (recordIds : Bool)
    (u : URL) : List String :=
  match handlers.getContentTypeAsync u with
  | .ok ct =>
    let short := contentTypeShortOf ct
    if short = "" then []
    else
      match lookupContentTypeParser handlers short with
      | none => []
      | some p =>
        match handlers.readTextAsync u with
        | .ok content =>
          (p ⟨content, recordIds⟩).hrefs.filterMap
            (fun href => (resolve href u).map (fun v => (getResourceIdentityFromURL v).href))
        | .notFound => []
        | .permissionDenied => []
  | .notFound => []
  | .permissionDenied => []

/-- True when a crawl result is fully drained: a configuration error (no
work was started), or a final state with an empty pending queue. -/
def drainedResult : Except CrawlFailure CrawlState → Bool
  | .error _ => true
  | .ok st => st.queue == []

/-! Concrete worlds used by witnesses and counterexamples. -/

def indexURL : URL := ⟨"file:", "///index.html", "", ""⟩

def otherURL : URL := ⟨"file:", "///other.html", "", ""⟩

def d2URL : URL := ⟨"file:", "///d2.html", "", ""⟩

def styleURL : URL := ⟨"file:", "///style.css", "", ""⟩

def styleFragURL : URL := ⟨"file:", "///style.css", "", "#frag"⟩

def mailtoURL : URL := ⟨"mailto:", "x@y", "", ""⟩

def emptyBinURL : URL := ⟨"file:", "///empty.bin", "", ""⟩

/-- A resolver that never resolves. -/
def noResolve : ResolveURL := fun _ _ => none

/-- World for end-to-end scenario 4: `index.html` and `other.html` link to
each other. -/
def mutualParse : ContentTypeParserFn := fun ctx =>
  if ctx.content = "INDEX" then ⟨["other.html"], []⟩
  else if ctx.content = "OTHER" then ⟨["index.html"], []⟩
  else ⟨[], []⟩

def mutualHandlers : CrawlHandlers where
  getContentTypeAsync := fun u =>
    if u = indexURL then .ok "text/html"
    else if u = otherURL then .ok "text/html"
    else .notFound
  readTextAsync := fun u =>
    if u = indexURL then .ok "INDEX"
    else if u = otherURL then .ok "OTHER"
    else .notFound
  contentTypeParsers := [("text/html", mutualParse)]

def mutualResolve : ResolveURL := fun href base =>
  if href = "other.html" then (if base = indexURL then some otherURL else none)
  else if href = "index.html" then (if base = otherURL then some indexURL else none)
  else none

def mutualUniverse : Finset String := {"file:///index.html", "file:///other.html"}

def mutualExpected : List (String × ResourceInfo) :=
  [("file:///index.html", ⟨some "text/html", some [⟨otherURL, "other.html"⟩], none⟩),
   ("file:///other.html", ⟨some "text/html", some [⟨indexURL, "index.html"⟩], none⟩)]

/-- World for the depth witness: `index.html` links to `d2.html`. -/
def depthParse : ContentTypeParserFn := fun ctx =>
  if ctx.content = "DINDEX" then ⟨["d2.html"], []⟩ else ⟨[], []⟩

def depthHandlers : CrawlHandlers where
  getContentTypeAsync := fun u =>
    if u = indexURL then .ok "text/html"
    else if u = d2URL then .ok "text/html"
    else .notFound
  readTextAsync := fun u =>
    if u = indexURL then .ok "DINDEX" else .notFound
  contentTypeParsers := [("text/html", depthParse)]

def depthResolve : ResolveURL := fun href base =>
  if href = "d2.html" then (if base = indexURL then some d2URL else none) else none

/-- World for the protocol counterexample: `index.html` contains a `mailto:`
reference and a `style.css` reference. -/
def protoParse : ContentTypeParserFn := fun ctx =>
  if ctx.content = "PINDEX" then ⟨["mailto:x@y", "style.css"], []⟩ else ⟨[], []⟩

def protoHandlers : CrawlHandlers where
  getContentTypeAsync := fun u =>
    if u = indexURL then .ok "text/html"
    else if u = styleURL then .ok "application/octet-stream"
    else .notFound
  readTextAsync := fun u =>
    if u = indexURL then .ok "PINDEX" else .notFound
  contentTypeParsers := [("text/html", protoParse)]

def protoResolve : ResolveURL := fun href base =>
  if href = "mailto:x@y" then some mailtoURL
  else if href = "style.css" then (if base = indexURL then some styleURL else none)
  else none

/-- World for the empty-content-type counterexample: `index.html` links to
`empty.bin`, whose content type resolves to the empty string. -/
def ctParse : ContentTypeParserFn := fun ctx =>
  if ctx.content = "CINDEX" then ⟨["empty.bin"], []⟩ else ⟨[], []⟩

def ctHandlers : CrawlHandlers where
  getContentTypeAsync := fun u =>
    if u = indexURL then .ok "text/html"
    else if u = emptyBinURL then .ok ""
    else .notFound
  readTextAsync := fun u =>
    if u = indexURL then .ok "CINDEX" else .notFound
  contentTypeParsers := [("text/html", ctParse)]

def ctResolve : ResolveURL := fun href base =>
  if href = "empty.bin" then (if base = indexURL then some emptyBinURL else none) else none

/-- World for the fragment counterexample: `index.html` links to
`style.css#frag`; `style.css` exists but is never parsed, so its record has
no `ids` set. -/
def fragParse : ContentTypeParserFn := fun ctx =>
  if ctx.content = "FINDEX" then ⟨["style.css#frag"], []⟩ else ⟨[], []⟩

def fragHandlers : CrawlHandlers where
  getContentTypeAsync := fun u =>
    if u = indexURL then .ok "text/html"
    else if u = styleURL then .ok "application/octet-stream"
    else .notFound
  readTextAsync := fun u =>
    if u = indexURL then .ok "FINDEX" else .notFound
  contentTypeParsers := [("text/html", fragParse)]

def fragResolve : ResolveURL := fun href base =>
  if href = "style.css#frag" then (if base = indexURL then some styleFragURL else none)
  else none

/-- World for the permission-denied failing input: the content-type lookup
of every resource raises `Deno.errors.PermissionDenied`. -/
def pdHandlers : CrawlHandlers where
  getContentTypeAsync := fun _ => .permissionDenied
  readTextAsync := fun _ => .notFound
  contentTypeParsers := []

def pdConfig : CrawlConfig := mkCrawlConfig "file:///" {}

/-! Invariants of the crawl state, used for the dedup, depth and
termination claims. -/

/-- Structural invariant of the crawl state, established by the seeding loop
and preserved by every work item: resource keys are unique; the pending
queue has no duplicates and refers only to existing resources; every key is
the href of its (canonical) resource URL; `links`/`ids` are only ever set on
resources strictly below the depth limit; and every resource has either had
its content type looked up already or is still pending. -/
structure CrawlStateInv (cfg : CrawlConfig) (st : CrawlState) : Prop where
  keys_nodup : (st.resources.map Prod.fst).Nodup
  queue_nodup : st.queue.Nodup
  queue_mem : ∀ k ∈ st.queue, containsKey st.resources k = true
  key_eq : ∀ p ∈ st.resources, p.1 = p.2.url.href
  url_canonical : ∀ p ∈ st.resources, getResourceIdentityFromURL p.2.url = p.2.url
  parsed_depth : ∀ p ∈ st.resources,
    (p.2.links ≠ none ∨ p.2.ids ≠ none) → depthLtMax cfg.maxDepth p.2.depth = true
  fetched_or_queued : ∀ p ∈ st.resources,
    (FetchKind.contentType, p.1) ∈ st.fetchLog ∨ p.1 ∈ st.queue

/-- All resource keys lie in the finite key universe `U`. -/
def UKeysInv (U : Finset String) (st : CrawlState) : Prop :=
  ∀ p ∈ st.resources, p.1 ∈ U

/-- The keys of `U` not yet discovered. -/
def undiscoveredKeys (U : Finset String) (st : CrawlState) : Finset String :=
  U.filter (fun k => containsKey st.resources k = false)

/-- Termination measure: pending work plus twice the undiscovered keys.
Popping a work item decreases it by one; enqueueing a new key trades one
undiscovered key (worth two) for one queue entry. -/
def crawlMeasure (U : Finset String) (st : CrawlState) : Nat :=
  st.queue.length + 2 * (undiscoveredKeys U st).card

/-! Helper lemmas. -/

theorem str_append_empty_right (s : String) : s ++ "" = s := by
  cases s with
  | mk data =>
    show String.mk (data ++ []) = String.mk data
    rw [List.append_nil]

theorem getResourceIdentity_idem (u : URL) :
    getResourceIdentityFromURL (getResourceIdentityFromURL u) = getResourceIdentityFromURL u := by
  unfold getResourceIdentityFromURL
  by_cases h : u.hash = "" <;> simp [h]

/-! Association-list lemmas. -/

theorem lookupKey_cons {α : Type} (k : String) (v : α) (rest : List (String × α)) (key : String) :
    lookupKey ((k, v) :: rest) key = if k = key then some v else lookupKey rest key := rfl

theorem mem_of_lookupKey {α : Type} {m : List (String × α)} {k : String} {v : α}
    (h : lookupKey m k = some v) : (k, v) ∈ m := by
  induction m with
  | nil => simp [lookupKey] at h
  | cons p rest ih =>
    obtain ⟨k2, v2⟩ := p
    rw [lookupKey_cons] at h
    by_cases hk : k2 = k
    · subst hk
      rw [if_pos rfl] at h
      cases h
      exact List.mem_cons_self _ _
    · rw [if_neg hk] at h
      exact List.mem_cons_of_mem _ (ih h)

theorem containsKey_iff_mem {α : Type} (m : List (String × α)) (k : String) :
    containsKey m k = true ↔ k ∈ m.map Prod.fst := by
  induction m with
  | nil => simp [containsKey, lookupKey]
  | cons p rest ih =>
    obtain ⟨k2, v2⟩ := p
    by_cases hk : k2 = k
    · subst hk
      simp [containsKey, lookupKey_cons]
    · have hk2 : ¬ (k = k2) := fun h => hk h.symm
      simp only [containsKey, lookupKey_cons, if_neg hk, List.map_cons, List.mem_cons]
      rw [← containsKey]
      simp [ih, hk2]

theorem lookupKey_append {α : Type} (m1 m2 : List (String × α)) (k : String) :
    lookupKey (m1 ++ m2) k
      = match lookupKey m1 k with
        | some v => some v
        | none => lookupKey m2 k := by
  induction m1 with
  | nil => simp [lookupKey]
  | cons p rest ih =>
    obtain ⟨k2, v2⟩ := p
    by_cases hk : k2 = k <;> simp [List.cons_append, lookupKey_cons, hk, ih]

theorem lookupKey_append_of_some {α : Type} {m1 : List (String × α)} {k : String} {v : α}
    (m2 : List (String × α)) (h : lookupKey m1 k = some v) :
    lookupKey (m1 ++ m2) k = some v := by
  rw [lookupKey_append, h]

theorem containsKey_append_single {α : Type} (m : List (String × α)) (k0 : String) (v0 : α)
    (k : String) :
    containsKey (m ++ [(k0, v0)]) k = (containsKey m k || decide (k0 = k)) := by
  unfold containsKey
  rw [lookupKey_append]
  cases h : lookupKey m k with
  | some v => simp
  | none =>
    by_cases hk : k0 = k <;> simp [lookupKey_cons, lookupKey, hk]

theorem updateKey_keys {α : Type} (f : α → α) (m : List (String × α)) (k : String) :
    (updateKey f m k).map Prod.fst = m.map Prod.fst := by
  induction m with
  | nil => rfl
  | cons p rest ih =>
    obtain ⟨k2, v2⟩ := p
    by_cases hk : k2 = k <;> simp [updateKey, hk, ih]

theorem containsKey_updateKey {α : Type} (f : α → α) (m : List (String × α)) (k k2 : String) :
    containsKey (updateKey f m k) k2 = containsKey m k2 := by
  induction m with
  | nil => rfl
  | cons p rest ih =>
    obtain ⟨k3, v3⟩ := p
    by_cases h3 : k3 = k
    · subst h3
      rw [updateKey, if_pos rfl]
      by_cases h32 : k3 = k2 <;> simp [containsKey, lookupKey_cons, h32]
    · rw [updateKey, if_neg h3]
      by_cases h32 : k3 = k2
      · simp [containsKey, lookupKey_cons, h32]
      · simpa [containsKey, lookupKey_cons, h32] using ih

theorem mem_updateKey {α : Type} {f : α → α} {m : List (String × α)} {k : String}
    {p : String × α} (hp : p ∈ updateKey f m k) :
    p ∈ m ∨ ∃ v, lookupKey m k = some v ∧ p = (k, f v) := by
  induction m with
  | nil => simp [updateKey] at hp
  | cons q rest ih =>
    obtain ⟨k2, v2⟩ := q
    by_cases hk : k2 = k
    · subst hk
      rw [updateKey, if_pos rfl] at hp
      rcases List.mem_cons.mp hp with h | h
      · exact Or.inr ⟨v2, by simp [lookupKey_cons], h⟩
      · exact Or.inl (List.mem_cons_of_mem _ h)
    · rw [updateKey, if_neg hk] at hp
      rcases List.mem_cons.mp hp with h | h
      · exact Or.inl (h ▸ List.mem_cons_self _ _)
      · rcases ih h with h2 | ⟨v, hv, hpv⟩
        · exact Or.inl (List.mem_cons_of_mem _ h2)
        · exact Or.inr ⟨v, by simp [lookupKey_cons, hk, hv], hpv⟩

theorem lookupKey_updateKey_self {α : Type} (f : α → α) (m : List (String × α)) (k : String) :
    lookupKey (updateKey f m k) k = (lookupKey m k).map f := by
  induction m with
  | nil => rfl
  | cons q rest ih =>
    obtain ⟨k2, v2⟩ := q
    by_cases hk : k2 = k <;> simp [updateKey, lookupKey_cons, hk, ih]

/-! Preservation of the crawl-state invariant by each elementary state
operation. -/

theorem inv_emptyCrawlState (cfg : CrawlConfig) : CrawlStateInv cfg emptyCrawlState := by
  constructor <;> simp [emptyCrawlState]

theorem inv_updateResource {cfg : CrawlConfig} {st : CrawlState} (key : String)
    (f : Resource → Resource)
    (hurl : ∀ v, (f v).url = v.url)
    (hdepth : ∀ v, (f v).depth = v.depth)
    (hparsed : ∀ v, lookupKey st.resources key = some v →
      ((f v).links ≠ none ∨ (f v).ids ≠ none) → depthLtMax cfg.maxDepth v.depth = true)
    (hinv : CrawlStateInv cfg st) :
    CrawlStateInv cfg { st with resources := updateKey f st.resources key } := by
  constructor
  · simpa [updateKey_keys] using hinv.keys_nodup
  · exact hinv.queue_nodup
  · intro k hk
    simpa [containsKey_updateKey] using hinv.queue_mem k hk
  · intro p hp
    rcases mem_updateKey hp with h | ⟨v, hv, rfl⟩
    · exact hinv.key_eq p h
    · have h1 := hinv.key_eq (key, v) (mem_of_lookupKey hv)
      simpa [hurl v] using h1
  · intro p hp
    rcases mem_updateKey hp with h | ⟨v, hv, rfl⟩
    · exact hinv.url_canonical p h
    · have h1 := hinv.url_canonical (key, v) (mem_of_lookupKey hv)
      simpa [hurl v] using h1
  · intro p hp hcond
    rcases mem_updateKey hp with h | ⟨v, hv, rfl⟩
    · exact hinv.parsed_depth p h hcond
    · have h1 := hparsed v hv (by simpa using hcond)
      simpa [hdepth v] using h1
  · intro p hp
    rcases mem_updateKey hp with h | ⟨v, hv, rfl⟩
    · exact hinv.fetched_or_queued p h
    · have h1 := hinv.fetched_or_queued (key, v) (mem_of_lookupKey hv)
      simpa using h1

theorem inv_setResourceContentType {cfg : CrawlConfig} {st : CrawlState} (key : String)
    (ct : Option String) (hinv : CrawlStateInv cfg st) :
    CrawlStateInv cfg (setResourceContentType key ct st) :=
  inv_updateResource key _ (fun _ => rfl) (fun _ => rfl)
    (fun v hv hcond => hinv.parsed_depth (key, v) (mem_of_lookupKey hv) (by simpa using hcond))
    hinv

theorem inv_setResourceLinks {cfg : CrawlConfig} {st : CrawlState} (key : String)
    (ls : Option (List ResourceLink))
    (hd : ∀ v, lookupKey st.resources key = some v → depthLtMax cfg.maxDepth v.depth = true)
    (hinv : CrawlStateInv cfg st) :
    CrawlStateInv cfg (setResourceLinks key ls st) :=
  inv_updateResource key _ (fun _ => rfl) (fun _ => rfl) (fun v hv _ => hd v hv) hinv

theorem inv_appendResourceLink {cfg : CrawlConfig} {st : CrawlState} (key : String)
    (l : ResourceLink)
    (hd : ∀ v, lookupKey st.resources key = some v → depthLtMax cfg.maxDepth v.depth = true)
    (hinv : CrawlStateInv cfg st) :
    CrawlStateInv cfg (appendResourceLink key l st) :=
  inv_updateResource key _ (fun _ => rfl) (fun _ => rfl) (fun v hv _ => hd v hv) hinv

theorem inv_setResourceIds {cfg : CrawlConfig} {st : CrawlState} (key : String)
    (ids : Option (List String))
    (hd : ∀ v, lookupKey st.resources key = some v → depthLtMax cfg.maxDepth v.depth = true)
    (hinv : CrawlStateInv cfg st) :
    CrawlStateInv cfg (setResourceIds key ids st) :=
  inv_updateResource key _ (fun _ => rfl) (fun _ => rfl) (fun v hv _ => hd v hv) hinv

theorem inv_logFetch {cfg : CrawlConfig} {st : CrawlState} (kind : FetchKind) (u : URL)
    (hinv : CrawlStateInv cfg st) :
    CrawlStateInv cfg (logFetch kind u st) := by
  constructor
  · exact hinv.keys_nodup
  · exact hinv.queue_nodup
  · exact hinv.queue_mem
  · exact hinv.key_eq
  · exact hinv.url_canonical
  · exact hinv.parsed_depth
  · intro p hp
    exact (hinv.fetched_or_queued p hp).imp (fun h => List.mem_append_left _ h) id

theorem inv_recordParseError {cfg : CrawlConfig} {st : CrawlState} (key msg : String)
    (hinv : CrawlStateInv cfg st) :
    CrawlStateInv cfg (recordParseError key msg st) := by
  constructor
  · exact hinv.keys_nodup
  · exact hinv.queue_nodup
  · exact hinv.queue_mem
  · exact hinv.key_eq
  · exact hinv.url_canonical
  · exact hinv.parsed_depth
  · exact hinv.fetched_or_queued

theorem inv_enqueueURLIfNeeded {cfg : CrawlConfig} {st : CrawlState} (u : URL) (d : Nat)
    (hinv : CrawlStateInv cfg st) :
    CrawlStateInv cfg (enqueueURLIfNeeded u cfg st d) := by
  simp only [enqueueURLIfNeeded]
  split
  case isFalse => exact hinv
  case isTrue hdep =>
    split
    case isFalse => exact hinv
    case isTrue hcond =>
      rw [Bool.and_eq_true, Bool.not_eq_true'] at hcond
      obtain ⟨-, hnc⟩ := hcond
      have hnotmem : (getResourceIdentityFromURL u).href ∉ st.resources.map Prod.fst := by
        intro hmem
        rw [← containsKey_iff_mem] at hmem
        rw [hmem] at hnc
        cases hnc
      constructor
      · simp only [List.map_append, List.map_cons, List.map_nil]
        refine List.Nodup.append hinv.keys_nodup (List.nodup_singleton _) ?_
        intro a ha hb
        rw [List.mem_singleton] at hb
        exact hnotmem (hb ▸ ha)
      · refine List.Nodup.append hinv.queue_nodup (List.nodup_singleton _) ?_
        intro a ha hb
        rw [List.mem_singleton] at hb
        rw [hb] at ha
        have h2 := hinv.queue_mem _ ha
        rw [h2] at hnc
        cases hnc
      · intro k hk
        rcases List.mem_append.mp hk with h | h
        · rw [containsKey_append_single, hinv.queue_mem k h]
          rfl
        · rw [List.mem_singleton] at h
          subst h
          rw [containsKey_append_single]
          simp
      · intro p hp
        rcases List.mem_append.mp hp with h | h
        · exact hinv.key_eq p h
        · rw [List.mem_singleton] at h
          subst h
          rfl
      · intro p hp
        rcases List.mem_append.mp hp with h | h
        · exact hinv.url_canonical p h
        · rw [List.mem_singleton] at h
          subst h
          exact getResourceIdentity_idem u
      · intro p hp hcond2
        rcases List.mem_append.mp hp with h | h
        · exact hinv.parsed_depth p h hcond2
        · rw [List.mem_singleton] at h
          subst h
          rcases hcond2 with h2 | h2 <;> exact absurd rfl h2
      · intro p hp
        rcases List.mem_append.mp hp with h | h
        · exact (hinv.fetched_or_queued p h).imp id (fun h2 => List.mem_append_left _ h2)
        · rw [List.mem_singleton] at h
          subst h
          exact Or.inr (List.mem_append_right _ (List.mem_singleton_self _))

theorem lookupKey_enqueueURLIfNeeded {cfg : CrawlConfig} {st : CrawlState} {u : URL} {d : Nat}
    {k : String} {v : Resource} (h : lookupKey st.resources k = some v) :
    lookupKey (enqueueURLIfNeeded u cfg st d).resources k = some v := by
  simp only [enqueueURLIfNeeded]
  split
  case isFalse => exact h
  case isTrue =>
    split
    case isFalse => exact h
    case isTrue => exact lookupKey_append_of_some _ h

/-! Preservation of the key universe and the termination measure. -/

theorem measure_updateResource (U : Finset String) (st : CrawlState) (key : String)
    (f : Resource → Resource) :
    crawlMeasure U { st with resources := updateKey f st.resources key } = crawlMeasure U st := by
  have hfil : undiscoveredKeys U { st with resources := updateKey f st.resources key }
      = undiscoveredKeys U st := by
    unfold undiscoveredKeys
    apply Finset.filter_congr
    intro x _
    simp [containsKey_updateKey]
  unfold crawlMeasure
  rw [hfil]

theorem measure_setResourceContentType (U : Finset String) (key : String) (ct : Option String)
    (st : CrawlState) :
    crawlMeasure U (setResourceContentType key ct st) = crawlMeasure U st :=
  measure_updateResource U st key _

theorem measure_setResourceLinks (U : Finset String) (key : String)
    (ls : Option (List ResourceLink)) (st : CrawlState) :
    crawlMeasure U (setResourceLinks key ls st) = crawlMeasure U st :=
  measure_updateResource U st key _

theorem measure_setResourceIds (U : Finset String) (key : String)
    (ids : Option (List String)) (st : CrawlState) :
    crawlMeasure U (setResourceIds key ids st) = crawlMeasure U st :=
  measure_updateResource U st key _

theorem measure_logFetch (U : Finset String) (kind : FetchKind) (u : URL) (st : CrawlState) :
    crawlMeasure U (logFetch kind u st) = crawlMeasure U st := rfl

theorem ukeys_updateResource {U : Finset String} {st : CrawlState} {key : String}
    {f : Resource → Resource} (hU : UKeysInv U st) :
    UKeysInv U { st with resources := updateKey f st.resources key } := by
  intro p hp
  rcases mem_updateKey hp with h | ⟨v, hv, rfl⟩
  · exact hU p h
  · exact hU (key, v) (mem_of_lookupKey hv)

theorem measure_enqueueURLIfNeeded (U : Finset String) {cfg : CrawlConfig} {st : CrawlState}
    (u : URL) (d : Nat) (hu : (getResourceIdentityFromURL u).href ∈ U) :
    crawlMeasure U (enqueueURLIfNeeded u cfg st d) ≤ crawlMeasure U st := by
  simp only [enqueueURLIfNeeded]
  split
  case isFalse => exact le_refl _
  case isTrue =>
    split
    case isFalse => exact le_refl _
    case isTrue hcond =>
      rw [Bool.and_eq_true, Bool.not_eq_true'] at hcond
      obtain ⟨-, hnc⟩ := hcond
      have hmem : (getResourceIdentityFromURL u).href ∈ undiscoveredKeys U st :=
        Finset.mem_filter.mpr ⟨hu, hnc⟩
      have herase :
          undiscoveredKeys U
            { st with
              resources := st.resources ++
                [((getResourceIdentityFromURL u).href,
                  ⟨getResourceIdentityFromURL u, d,
                    strStartsWith (getResourceIdentityFromURL u).href cfg.base,
                    none, none, none⟩)]
              queue := st.queue ++ [(getResourceIdentityFromURL u).href] }
            = (undiscoveredKeys U st).erase (getResourceIdentityFromURL u).href := by
        unfold undiscoveredKeys
        ext k
        simp only [Finset.mem_filter, Finset.mem_erase]
        rw [containsKey_append_single]
        constructor
        · rintro ⟨hkU, hck⟩
          rw [Bool.or_eq_false_iff] at hck
          obtain ⟨h1, h2⟩ := hck
          rw [decide_eq_false_iff_not] at h2
          exact ⟨fun hh => h2 hh.symm, hkU, h1⟩
        · rintro ⟨hne, hkU, h1⟩
          refine ⟨hkU, ?_⟩
          rw [Bool.or_eq_false_iff]
          exact ⟨h1, decide_eq_false_iff_not.mpr (fun hh => hne hh.symm)⟩
      have hpos : 0 < (undiscoveredKeys U st).card := Finset.card_pos.mpr ⟨_, hmem⟩
      unfold crawlMeasure
      rw [herase, Finset.card_erase_of_mem hmem]
      simp only [List.length_append, List.length_cons, List.length_nil]
      omega

theorem ukeys_enqueueURLIfNeeded {U : Finset String} {cfg : CrawlConfig} {st : CrawlState}
    (u : URL) (d : Nat) (hu : (getResourceIdentityFromURL u).href ∈ U) (hU : UKeysInv U st) :
    UKeysInv U (enqueueURLIfNeeded u cfg st d) := by
  simp only [enqueueURLIfNeeded]
  split
  case isFalse => exact hU
  case isTrue =>
    split
    case isFalse => exact hU
    case isTrue =>
      intro p hp
      rcases List.mem_append.mp hp with h | h
      · exact hU p h
      · rw [List.mem_singleton] at h
        rw [h]
        exact hu

/-- One pass of the href loop preserves the invariant, the looked-up depth of
the processed resource, the key universe, and does not increase the
termination measure. -/
theorem step_processLinks (resolve : ResolveURL) (cfg : CrawlConfig) (key : String)
    (baseURL : URL) (d0 : Nat) (hrefs : List String) (st : CrawlState)
    (hinv : CrawlStateInv cfg st)
    (hkv : ∃ v, lookupKey st.resources key = some v ∧ v.depth = d0)
    (hlt : depthLtMax cfg.maxDepth d0 = true) :
    CrawlStateInv cfg (processLinks resolve cfg key baseURL d0 hrefs st).1 ∧
    (∃ v, lookupKey (processLinks resolve cfg key baseURL d0 hrefs st).1.resources key = some v ∧
      v.depth = d0) ∧
    ∀ U : Finset String, UKeysInv U st →
      (∀ h ∈ hrefs, ∀ v, resolve h baseURL = some v →
        (getResourceIdentityFromURL v).href ∈ U) →
      UKeysInv U (processLinks resolve cfg key baseURL d0 hrefs st).1 ∧
      crawlMeasure U (processLinks resolve cfg key baseURL d0 hrefs st).1 ≤ crawlMeasure U st := by
  induction hrefs generalizing st with
  | nil => exact ⟨hinv, hkv, fun U hU _ => ⟨hU, le_refl _⟩⟩
  | cons href rest ih =>
    obtain ⟨v0, hv0, hd0⟩ := hkv
    have hd : ∀ v, lookupKey st.resources key = some v →
        depthLtMax cfg.maxDepth v.depth = true := by
      intro v hv
      rw [hv0] at hv
      cases hv
      rw [hd0]
      exact hlt
    cases hres : resolve href baseURL with
    | none =>
      simp only [processLinks, hres]
      exact ⟨hinv, ⟨v0, hv0, hd0⟩, fun U hU _ => ⟨hU, le_refl _⟩⟩
    | some url =>
      by_cases hp : allowedProtocols.contains url.protocol = true
      · simp only [processLinks, hres]
        rw [if_pos hp]
        have hinv1 : CrawlStateInv cfg (appendResourceLink key ⟨url, href⟩ st) :=
          inv_appendResourceLink key _ hd hinv
        have hkv1 : ∃ v, lookupKey (appendResourceLink key ⟨url, href⟩ st).resources key
            = some v ∧ v.depth = d0 := by
          refine ⟨{ v0 with links := some (v0.links.getD [] ++ [⟨url, href⟩]) }, ?_, ?_⟩
          · show lookupKey (updateKey _ st.resources key) key = _
            rw [lookupKey_updateKey_self, hv0]
            rfl
          · exact hd0
        have hinv2 : CrawlStateInv cfg
            (enqueueURLIfNeeded url cfg (appendResourceLink key ⟨url, href⟩ st) (d0 + 1)) :=
          inv_enqueueURLIfNeeded url (d0 + 1) hinv1
        have hkv2 : ∃ v, lookupKey
            (enqueueURLIfNeeded url cfg (appendResourceLink key ⟨url, href⟩ st)
              (d0 + 1)).resources key = some v ∧ v.depth = d0 := by
          obtain ⟨v1, hv1, hdv1⟩ := hkv1
          exact ⟨v1, lookupKey_enqueueURLIfNeeded hv1, hdv1⟩
        obtain ⟨hI, hK, hUfun⟩ := ih _ hinv2 hkv2
        refine ⟨hI, hK, ?_⟩
        intro U hU hcl
        have hu : (getResourceIdentityFromURL url).href ∈ U :=
          hcl href (List.mem_cons_self _ _) url hres
        have hU1 : UKeysInv U (appendResourceLink key ⟨url, href⟩ st) :=
          ukeys_updateResource hU
        have hU2 : UKeysInv U
            (enqueueURLIfNeeded url cfg (appendResourceLink key ⟨url, href⟩ st) (d0 + 1)) :=
          ukeys_enqueueURLIfNeeded url (d0 + 1) hu hU1
        obtain ⟨hU3, hμ3⟩ := hUfun U hU2
          (fun h2 hm v hres2 => hcl h2 (List.mem_cons_of_mem _ hm) v hres2)
        refine ⟨hU3, le_trans hμ3 ?_⟩
        calc crawlMeasure U
              (enqueueURLIfNeeded url cfg (appendResourceLink key ⟨url, href⟩ st) (d0 + 1))
            ≤ crawlMeasure U (appendResourceLink key ⟨url, href⟩ st) :=
              measure_enqueueURLIfNeeded U url (d0 + 1) hu
          _ = crawlMeasure U st := measure_updateResource U st key _
      · simp only [processLinks, hres]
        rw [if_neg hp]
        obtain ⟨hI, hK, hUfun⟩ := ih st hinv ⟨v0, hv0, hd0⟩
        exact ⟨hI, hK, fun U hU hcl =>
          hUfun U hU (fun h2 hm v hres2 => hcl h2 (List.mem_cons_of_mem _ hm) v hres2)⟩

/-- Processing one popped work item preserves the invariant and, under the
key-universe closure, strictly decreases the termination measure. -/
theorem step_processWorkItem (handlers : CrawlHandlers) (resolve : ResolveURL)
    (cfg : CrawlConfig) (href : String) (rest : List String) (st : CrawlState)
    (hinv : CrawlStateInv cfg st) (hq : st.queue = href :: rest) :
    CrawlStateInv cfg
      (processWorkItemAsync handlers resolve cfg href { st with queue := rest }).1 ∧
    ∀ U : Finset String, UKeysInv U st →
      (∀ u : URL, (getResourceIdentityFromURL u).href ∈ U →
        ∀ k ∈ resourceLinkKeys handlers resolve cfg.recordIds u, k ∈ U) →
      UKeysInv U (processWorkItemAsync handlers resolve cfg href { st with queue := rest }).1 ∧
      crawlMeasure U
          (processWorkItemAsync handlers resolve cfg href { st with queue := rest }).1 + 1
        ≤ crawlMeasure U st := by
  have hcont : containsKey st.resources href = true :=
    hinv.queue_mem href (by rw [hq]; exact List.mem_cons_self _ _)
  obtain ⟨r, hr⟩ : ∃ r, lookupKey st.resources href = some r := by
    unfold containsKey at hcont
    exact Option.isSome_iff_exists.mp hcont
  have hrmem : (href, r) ∈ st.resources := mem_of_lookupKey hr
  have hkeq : href = r.url.href := hinv.key_eq (href, r) hrmem
  have hcanon : getResourceIdentityFromURL r.url = r.url := hinv.url_canonical (href, r) hrmem
  have hr2 : lookupKey ({ st with queue := rest } : CrawlState).resources href = some r := hr
  have hinv0 : CrawlStateInv cfg (logFetch .contentType r.url { st with queue := rest }) := by
    constructor
    · exact hinv.keys_nodup
    · have h2 := hinv.queue_nodup
      rw [hq] at h2
      exact h2.of_cons
    · intro k hk
      exact hinv.queue_mem k (by rw [hq]; exact List.mem_cons_of_mem _ hk)
    · exact hinv.key_eq
    · exact hinv.url_canonical
    · exact hinv.parsed_depth
    · intro p hp
      rcases hinv.fetched_or_queued p hp with h | h
      · exact Or.inl (List.mem_append_left _ h)
      · rw [hq] at h
        rcases List.mem_cons.mp h with h2 | h2
        · refine Or.inl (List.mem_append_right _ ?_)
          rw [List.mem_singleton, h2, hkeq]
        · exact Or.inr h2
  have hμpop : ∀ U : Finset String,
      crawlMeasure U (logFetch .contentType r.url { st with queue := rest }) + 1
        = crawlMeasure U st := by
    intro U
    show rest.length + 2 * (Finset.filter (fun k => containsKey st.resources k = false) U).card + 1
        = st.queue.length + 2 * (Finset.filter (fun k => containsKey st.resources k = false) U).card
    rw [hq, List.length_cons]
    omega
  simp only [processWorkItemAsync, hr2]
  cases hgc : handlers.getContentTypeAsync r.url with
  | permissionDenied =>
    exact ⟨hinv0, fun U hU _ => ⟨hU, le_of_eq (hμpop U)⟩⟩
  | notFound =>
    simp only [processAfterContentType]
    refine ⟨inv_setResourceContentType href none hinv0, ?_⟩
    intro U hU _
    refine ⟨ukeys_updateResource hU, le_of_eq ?_⟩
    rw [measure_setResourceContentType]
    exact hμpop U
  | ok ct =>
    simp only [processAfterContentType]
    by_cases hs : contentTypeShortOf ct = ""
    · rw [if_pos hs]
      refine ⟨inv_setResourceContentType href (some ct) hinv0, ?_⟩
      intro U hU _
      refine ⟨ukeys_updateResource hU, le_of_eq ?_⟩
      rw [measure_setResourceContentType]
      exact hμpop U
    · rw [if_neg hs]
      cases hpar : lookupContentTypeParser handlers (contentTypeShortOf ct) with
      | none =>
        refine ⟨inv_setResourceContentType href (some ct) hinv0, ?_⟩
        intro U hU _
        refine ⟨ukeys_updateResource hU, le_of_eq ?_⟩
        rw [measure_setResourceContentType]
        exact hμpop U
      | some p =>
        dsimp only
        by_cases hg : ((r.internal || cfg.followExternalLinks)
            && depthLtMax cfg.maxDepth r.depth) = true
        · rw [if_pos hg]
          have hlt : depthLtMax cfg.maxDepth r.depth = true := by
            rw [Bool.and_eq_true] at hg
            exact hg.2
          have hinv1 : CrawlStateInv cfg
              (setResourceContentType href (some ct)
                (logFetch .contentType r.url { st with queue := rest })) :=
            inv_setResourceContentType href (some ct) hinv0
          have hinv2 : CrawlStateInv cfg
              (logFetch .readText r.url (setResourceContentType href (some ct)
                (logFetch .contentType r.url { st with queue := rest }))) :=
            inv_logFetch _ _ hinv1
          cases hrt : handlers.readTextAsync r.url with
          | permissionDenied =>
            refine ⟨hinv2, ?_⟩
            intro U hU _
            refine ⟨ukeys_updateResource hU, le_of_eq ?_⟩
            rw [measure_logFetch, measure_setResourceContentType]
            exact hμpop U
          | notFound =>
            refine ⟨inv_setResourceContentType href none hinv2, ?_⟩
            intro U hU _
            refine ⟨ukeys_updateResource (ukeys_updateResource hU), le_of_eq ?_⟩
            rw [measure_setResourceContentType, measure_logFetch, measure_setResourceContentType]
            exact hμpop U
          | ok content =>
            simp only []
            have hr3 : lookupKey (logFetch FetchKind.readText r.url
                (setResourceContentType href (some ct)
                  (logFetch .contentType r.url { st with queue := rest }))).resources href
                = some { r with contentType := some ct } := by
              show lookupKey (updateKey _ st.resources href) href = _
              rw [lookupKey_updateKey_self, hr]
              rfl
            have hd3 : ∀ v, lookupKey (logFetch FetchKind.readText r.url
                (setResourceContentType href (some ct)
                  (logFetch .contentType r.url { st with queue := rest }))).resources href
                = some v → depthLtMax cfg.maxDepth v.depth = true := by
              intro v hv
              rw [hr3] at hv
              cases hv
              exact hlt
            have hinv3 : CrawlStateInv cfg
                (setResourceLinks href (some []) (logFetch .readText r.url
                  (setResourceContentType href (some ct)
                    (logFetch .contentType r.url { st with queue := rest })))) :=
              inv_setResourceLinks href (some []) hd3 hinv2
            have hkv3 : ∃ v, lookupKey
                (setResourceLinks href (some []) (logFetch .readText r.url
                  (setResourceContentType href (some ct)
                    (logFetch .contentType r.url { st with queue := rest })))).resources href
                = some v ∧ v.depth = r.depth := by
              refine ⟨{ r with contentType := some ct, links := some [] }, ?_, rfl⟩
              show lookupKey (updateKey _ _ href) href = _
              rw [lookupKey_updateKey_self, hr3]
              rfl
            obtain ⟨hIL, hKL, hUL⟩ := step_processLinks resolve cfg href r.url r.depth
              (p ⟨content, cfg.recordIds⟩).hrefs _ hinv3 hkv3 hlt
            cases hloop : processLinks resolve cfg href r.url r.depth
                (p ⟨content, cfg.recordIds⟩).hrefs
                (setResourceLinks href (some []) (logFetch .readText r.url
                  (setResourceContentType href (some ct)
                    (logFetch .contentType r.url { st with queue := rest })))) with
            | mk st4 ok =>
              rw [hloop] at hIL hKL hUL
              have hμ4 : ∀ U : Finset String, UKeysInv U st →
                  (∀ u : URL, (getResourceIdentityFromURL u).href ∈ U →
                    ∀ k ∈ resourceLinkKeys handlers resolve cfg.recordIds u, k ∈ U) →
                  UKeysInv U st4 ∧ crawlMeasure U st4 + 1 ≤ crawlMeasure U st := by
                intro U hU hclosed
                have hrefU : (getResourceIdentityFromURL r.url).href ∈ U := by
                  rw [hcanon, ← hkeq]
                  exact hU (href, r) hrmem
                have hcl : ∀ h2 ∈ (p ⟨content, cfg.recordIds⟩).hrefs, ∀ v,
                    resolve h2 r.url = some v → (getResourceIdentityFromURL v).href ∈ U := by
                  intro h2 hm v hres2
                  refine hclosed r.url hrefU _ ?_
                  simp only [resourceLinkKeys, hgc, hrt, hpar, hs, if_false]
                  exact List.mem_filterMap.mpr ⟨h2, hm, by rw [hres2]; rfl⟩
                have hU3 : UKeysInv U
                    (setResourceLinks href (some []) (logFetch .readText r.url
                      (setResourceContentType href (some ct)
                        (logFetch .contentType r.url { st with queue := rest })))) :=
                  ukeys_updateResource (ukeys_updateResource hU)
                obtain ⟨hU4, hμ⟩ := hUL U hU3 hcl
                refine ⟨hU4, ?_⟩
                have hμ3 : crawlMeasure U
                    (setResourceLinks href (some []) (logFetch .readText r.url
                      (setResourceContentType href (some ct)
                        (logFetch .contentType r.url { st with queue := rest }))))
                    = crawlMeasure U (logFetch .contentType r.url { st with queue := rest }) := by
                  rw [measure_setResourceLinks, measure_logFetch, measure_setResourceContentType]
                rw [hμ3] at hμ
                calc crawlMeasure U st4 + 1
                    ≤ crawlMeasure U (logFetch .contentType r.url { st with queue := rest }) + 1 :=
                      Nat.add_le_add_right hμ 1
                  _ = crawlMeasure U st := hμpop U
              cases ok with
              | true =>
                simp only []
                have hd4 : ∀ v, lookupKey st4.resources href = some v →
                    depthLtMax cfg.maxDepth v.depth = true := by
                  intro v hv
                  obtain ⟨v4, hv4, hdv4⟩ := hKL
                  rw [hv4] at hv
                  cases hv
                  rw [hdv4]
                  exact hlt
                by_cases hrec : cfg.recordIds = true
                · rw [if_pos hrec]
                  refine ⟨inv_setResourceIds href _ hd4 hIL, ?_⟩
                  intro U hU hclosed
                  obtain ⟨hU4, hμ⟩ := hμ4 U hU hclosed
                  refine ⟨ukeys_updateResource hU4, ?_⟩
                  rw [measure_setResourceIds]
                  exact hμ
                · rw [if_neg hrec]
                  exact ⟨hIL, fun U hU hclosed => hμ4 U hU hclosed⟩
              | false =>
                simp only []
                refine ⟨inv_recordParseError _ _ hIL, ?_⟩
                intro U hU hclosed
                obtain ⟨hU4, hμ⟩ := hμ4 U hU hclosed
                exact ⟨hU4, hμ⟩
        · rw [if_neg hg]
          refine ⟨inv_setResourceContentType href (some ct) hinv0, ?_⟩
          intro U hU _
          refine ⟨ukeys_updateResource hU, le_of_eq ?_⟩
          rw [measure_setResourceContentType]
          exact hμpop U

/-! Claim C9. -/

/-- Claim C9: canonicalization (`getResourceIdentityFromURL`) is idempotent,
and its result differs from the input only by removal of the fragment: the
protocol, the authority-and-path part (`core`) and the query are preserved
verbatim, the resulting `hash` is empty, and appending the original fragment
to the result reproduces the original href. -/
theorem claim9_canonicalization_idempotent (u : URL) :
    getResourceIdentityFromURL (getResourceIdentityFromURL u) = getResourceIdentityFromURL u ∧
    (getResourceIdentityFromURL u).protocol = u.protocol ∧
    (getResourceIdentityFromURL u).core = u.core ∧
    (getResourceIdentityFromURL u).query = u.query ∧
    (getResourceIdentityFromURL u).hash = "" ∧
    (getResourceIdentityFromURL u).href ++ u.hash = u.href := by
  refine ⟨getResourceIdentity_idem u, ?_⟩
  unfold getResourceIdentityFromURL URL.href
  by_cases h : u.hash = "" <;> simp [h, str_append_empty_right]

/-- Witness for C9 at a concrete URL with a fragment. -/
theorem claim9_canonicalization_idempotent_witness :
    getResourceIdentityFromURL (getResourceIdentityFromURL styleFragURL)
        = getResourceIdentityFromURL styleFragURL ∧
    (getResourceIdentityFromURL styleFragURL).protocol = styleFragURL.protocol ∧
    (getResourceIdentityFromURL styleFragURL).core = styleFragURL.core ∧
    (getResourceIdentityFromURL styleFragURL).query = styleFragURL.query ∧
    (getResourceIdentityFromURL styleFragURL).hash = "" ∧
    (getResourceIdentityFromURL styleFragURL).href ++ styleFragURL.hash = styleFragURL.href :=
  claim9_canonicalization_idempotent styleFragURL

/-! Claim C10. -/

/-- Claim C10: calling `crawlAsync` with an empty array of entry points is
not a configuration error: the crawl returns immediately with an empty
resource collection, having created no state, enqueued no work and invoked
no handler (the final state is `emptyCrawlState`, whose queue and fetch log
are empty), for every choice of handlers, options and fuel. -/
theorem claim10_empty_entry_points (handlers : CrawlHandlers) (resolve : ResolveURL)
    (options : CrawlOptions) (fuel : Nat) :
    crawlAsyncFull handlers resolve [] options fuel = .ok emptyCrawlState ∧
    crawlAsync handlers resolve [] options fuel = .ok [] :=
  ⟨rfl, rfl⟩

/-- Witness for C10 at concrete handlers with a bad concurrency option. -/
theorem claim10_empty_entry_points_witness :
    crawlAsyncFull mutualHandlers mutualResolve [] { maxConcurrency := some 0 } 0
        = .ok emptyCrawlState ∧
    crawlAsync mutualHandlers mutualResolve [] { maxConcurrency := some 0 } 0 = .ok [] :=
  claim10_empty_entry_points mutualHandlers mutualResolve { maxConcurrency := some 0 } 0

/-! Claim C7. -/

/-- Counterexample to C7 as stated: with an empty entry-point array,
`crawlAsync` returns an empty collection without throwing, even though
`maxConcurrency` is 0 — the claim says a non-positive `maxConcurrency`
always causes a throw before any fetch. -/
theorem claim7_counterexample :
    hasBadMaxConcurrency { maxConcurrency := some 0 } = true ∧
    crawlAsyncFull mutualHandlers mutualResolve [] { maxConcurrency := some 0 } 1
        = .ok emptyCrawlState ∧
    crawlAsync mutualHandlers mutualResolve [] { maxConcurrency := some 0 } 1 = .ok [] :=
  ⟨by decide, rfl, rfl⟩

/-- Claim C7 (amended: given at least one entry point): each configuration
error — non-positive `maxConcurrency`, multiple entry points with differing
derived bases and no explicit base, or an entry point outside an explicit
base — makes `crawlAsync` fail with an error, and the outcome is identical
for every choice of handlers, resolver and fuel: no resource fetch can have
occurred or influenced the result. -/
theorem claim7_config_errors_fail_fast (handlers : CrawlHandlers) (resolve : ResolveURL)
    (first : URL) (rest : List URL) (options : CrawlOptions) (fuel : Nat)
    (herr : hasBaseMismatch options (first :: rest) first = true ∨
            hasEntryOutsideBase options (first :: rest) first = true ∨
            hasBadMaxConcurrency options = true) :
    (∃ e, crawlAsyncFull handlers resolve (first :: rest) options fuel = .error e) ∧
    ∀ (handlers2 : CrawlHandlers) (resolve2 : ResolveURL) (fuel2 : Nat),
      crawlAsyncFull handlers2 resolve2 (first :: rest) options fuel2
        = crawlAsyncFull handlers resolve (first :: rest) options fuel := by
  by_cases h1 : hasBaseMismatch options (first :: rest) first = true
  · exact ⟨⟨.baseMismatch, by simp [crawlAsyncFull, h1]⟩,
      fun handlers2 resolve2 fuel2 => by simp [crawlAsyncFull, h1]⟩
  · by_cases h2 : hasEntryOutsideBase options (first :: rest) first = true
    · exact ⟨⟨.entryOutsideBase, by simp [crawlAsyncFull, h1, h2]⟩,
        fun handlers2 resolve2 fuel2 => by simp [crawlAsyncFull, h1, h2]⟩
    · have h3 : hasBadMaxConcurrency options = true := by
        rcases herr with h | h | h
        · exact absurd h h1
        · exact absurd h h2
        · exact h
      exact ⟨⟨.badMaxConcurrency, by simp [crawlAsyncFull, h1, h2, h3]⟩,
        fun handlers2 resolve2 fuel2 => by simp [crawlAsyncFull, h1, h2, h3]⟩

/-- Witness for the amended C7: one entry point, `maxConcurrency = 0`. -/
theorem claim7_config_errors_fail_fast_witness :
    (hasBaseMismatch { maxConcurrency := some 0 } [indexURL] indexURL = true ∨
     hasEntryOutsideBase { maxConcurrency := some 0 } [indexURL] indexURL = true ∨
     hasBadMaxConcurrency { maxConcurrency := some 0 } = true) ∧
    ((∃ e, crawlAsyncFull mutualHandlers mutualResolve [indexURL]
        { maxConcurrency := some 0 } 3 = .error e) ∧
     ∀ (handlers2 : CrawlHandlers) (resolve2 : ResolveURL) (fuel2 : Nat),
       crawlAsyncFull handlers2 resolve2 [indexURL] { maxConcurrency := some 0 } fuel2
         = crawlAsyncFull mutualHandlers mutualResolve [indexURL]
             { maxConcurrency := some 0 } 3) :=
  ⟨Or.inr (Or.inr (by decide)),
   claim7_config_errors_fail_fast mutualHandlers mutualResolve indexURL [] _ 3
     (Or.inr (Or.inr (by decide)))⟩

/-! Claim C8. -/

/-- Claim C8 (code bug witness): at the failing input — a crawl of a single
entry whose `getContentTypeAsync` raises `Deno.errors.PermissionDenied` —
the per-item handler does rethrow the permission error (the work item
promise rejects with it), but `TaskQueue.drain` swallows the rejection, so
`crawlAsync` resolves normally with the resource left content-type-less
instead of propagating the error out of the whole crawl. -/
theorem claim8_permission_denied_swallowed :
    (processWorkItemAsync pdHandlers noResolve pdConfig "file:///index.html"
        { seedCrawlState pdConfig [indexURL] with queue := [] }).2
      = some Rejection.permissionDenied ∧
    crawlAsyncFull pdHandlers noResolve [indexURL] {} 2
      = .ok ⟨[("file:///index.html", ⟨indexURL, 0, true, none, none, none⟩)], [], [],
             [(FetchKind.contentType, "file:///index.html")]⟩ ∧
    crawlAsync pdHandlers noResolve [indexURL] {} 2
      = .ok [("file:///index.html", ⟨none, none, none⟩)] :=
  ⟨rfl, rfl, rfl⟩

/-! Claim C3. -/

theorem foldl_broken_inner (cf : Bool) (coll : List (String × ResourceInfo)) (src : String)
    (links : List ResourceLink) (acc : List Link) :
    links.foldl (fun acc2 link =>
        if isBrokenLink cf coll link then
          acc2 ++ [⟨src, link.canonicalURL.href, link.originalHrefString⟩]
        else acc2) acc
      = acc ++ (links.filter (fun l => isBrokenLink cf coll l)).map
          (fun l => ⟨src, l.canonicalURL.href, l.originalHrefString⟩) := by
  induction links generalizing acc with
  | nil => simp
  | cons l ls ih =>
    by_cases h : isBrokenLink cf coll l = true <;>
      simp [List.foldl_cons, h, ih, List.append_assoc]

theorem computeBrokenLinks_eq_spec (cf : Bool) (coll : List (String × ResourceInfo)) :
    computeBrokenLinks cf coll = brokenLinksSpec cf coll := by
  unfold computeBrokenLinks brokenLinksSpec
  suffices h : ∀ (part : List (String × ResourceInfo)) (acc : List Link),
      part.foldl (fun acc p =>
        match p.2.links with
        | none => acc
        | some links =>
          links.foldl (fun acc2 link =>
            if isBrokenLink cf coll link then
              acc2 ++ [⟨p.1, link.canonicalURL.href, link.originalHrefString⟩]
            else acc2) acc) acc
      = acc ++ part.flatMap (fun p =>
          ((p.2.links.getD []).filter (fun l => isBrokenLink cf coll l)).map
            (fun l => ⟨p.1, l.canonicalURL.href, l.originalHrefString⟩)) by
    simpa using h coll []
  intro part
  induction part with
  | nil => simp
  | cons p ps ih =>
    intro acc
    cases hl : p.2.links with
    | none =>
      simp only [List.foldl_cons, hl, List.flatMap_cons, Option.getD_none, List.filter_nil,
        List.map_nil, List.nil_append]
      exact ih acc
    | some links =>
      simp only [List.foldl_cons, hl]
      rw [foldl_broken_inner, ih, List.append_assoc]
      simp only [List.flatMap_cons, hl, Option.getD_some]

/-- Counterexample to C3 as stated: `empty.bin` is present in the returned
collection with a *set* (but empty-string) content type, yet the link to it
is reported broken — the claim says only an unset content type is reported
broken. -/
theorem claim3_counterexample :
    checkLinksAsync ctHandlers ctResolve [indexURL] {} 3
      = .ok ⟨[⟨"file:///index.html", "file:///empty.bin", "empty.bin"⟩]⟩ ∧
    crawlAsync ctHandlers ctResolve [indexURL]
      { base := none, externalLinks := some .ignore, recordsIds := none,
        maxConcurrency := none, depth := none } 3
      = .ok [("file:///index.html",
               ⟨some "text/html", some [⟨emptyBinURL, "empty.bin"⟩], none⟩),
             ("file:///empty.bin", ⟨some "", none, none⟩)] :=
  ⟨rfl, rfl⟩

/-- Claim C3 (amended: a link is broken for target-missing reasons iff the
target key is present in the collection with a JS-falsy content type, i.e.
unset *or the empty string*): the broken-link loop returns, per source, the
links satisfying `isBrokenLink`; a link whose target key is absent from the
collection is never broken; and with fragment checking off, a link is broken
exactly when the target lookup succeeds with a falsy content type. -/
theorem claim3_broken_target_characterization (cf : Bool)
    (collection : List (String × ResourceInfo)) (link : ResourceLink) :
    computeBrokenLinks cf collection = brokenLinksSpec cf collection ∧
    (lookupKey collection (getResourceIdentityFromURL link.canonicalURL).href = none →
      isBrokenLink cf collection link = false) ∧
    isBrokenLink false collection link
      = (match lookupKey collection (getResourceIdentityFromURL link.canonicalURL).href with
         | none => false
         | some ti => jsFalsyString ti.contentType) := by
  refine ⟨computeBrokenLinks_eq_spec cf collection, ?_, ?_⟩
  · intro h
    simp [isBrokenLink, h]
  · cases h : lookupKey collection (getResourceIdentityFromURL link.canonicalURL).href with
    | none => simp [isBrokenLink, h]
    | some ti => simp [isBrokenLink, h]

/-- Witness for the amended C3 at a concrete collection and link. -/
theorem claim3_broken_target_characterization_witness :
    computeBrokenLinks false [("file:///empty.bin", ⟨some "", none, none⟩)]
        = brokenLinksSpec false [("file:///empty.bin", ⟨some "", none, none⟩)] ∧
    (lookupKey [("file:///empty.bin", (⟨some "", none, none⟩ : ResourceInfo))]
        (getResourceIdentityFromURL (ResourceLink.mk emptyBinURL "empty.bin").canonicalURL).href
          = none →
      isBrokenLink false [("file:///empty.bin", ⟨some "", none, none⟩)]
        ⟨emptyBinURL, "empty.bin"⟩ = false) ∧
    isBrokenLink false [("file:///empty.bin", ⟨some "", none, none⟩)] ⟨emptyBinURL, "empty.bin"⟩
      = (match lookupKey [("file:///empty.bin", (⟨some "", none, none⟩ : ResourceInfo))]
            (getResourceIdentityFromURL (ResourceLink.mk emptyBinURL "empty.bin").canonicalURL).href with
         | none => false
         | some ti => jsFalsyString ti.contentType) :=
  claim3_broken_target_characterization false
    [("file:///empty.bin", ⟨some "", none, none⟩)] ⟨emptyBinURL, "empty.bin"⟩

/-! Claim C4. -/

/-- Counterexample to C4 as stated: with fragment checking enabled, a link
carrying the fragment `#frag` whose target resolved to a content type but
has *no* recorded anchor set is NOT reported broken — the claim says the
absence of any anchor set also counts as broken. -/
theorem claim4_counterexample :
    checkLinksAsync fragHandlers fragResolve [indexURL] { checkFragments := some true } 3
      = .ok ⟨[]⟩ ∧
    crawlAsync fragHandlers fragResolve [indexURL]
      { base := none, externalLinks := some .ignore, recordsIds := some true,
        maxConcurrency := none, depth := none } 3
      = .ok [("file:///index.html",
               ⟨some "text/html", some [⟨styleFragURL, "style.css#frag"⟩], some []⟩),
             ("file:///style.css", ⟨some "application/octet-stream", none, none⟩)] ∧
    styleFragURL.hash = "#frag" :=
  ⟨rfl, rfl, rfl⟩

/-- Claim C4 (amended): with fragment checking enabled, for a link whose
original reference carries a fragment and whose target resolved to a truthy
content type, the link is broken exactly when the target record HAS a
recorded anchor set that lacks the fragment; when the target record has no
anchor set at all, the link is NOT reported broken. -/
theorem claim4_fragment_requires_recorded_ids
    (collection : List (String × ResourceInfo)) (link : ResourceLink) (ti : ResourceInfo)
    (hti : lookupKey collection (getResourceIdentityFromURL link.canonicalURL).href = some ti)
    (hct : jsFalsyString ti.contentType = false)
    (hhash : (link.canonicalURL.hash == "") = false) :
    isBrokenLink true collection link
      = (match ti.ids with
         | none => false
         | some ids => !ids.contains (dropFirstChar link.canonicalURL.hash)) := by
  cases hids : ti.ids with
  | none => simp [isBrokenLink, hti, hct, hhash, hids]
  | some ids => simp [isBrokenLink, hti, hct, hhash, hids]

/-- Witness for the amended C4: a fragment link to an existing resource with
no recorded anchor set is not broken. -/
theorem claim4_fragment_requires_recorded_ids_witness :
    lookupKey [("file:///style.css", (⟨some "application/octet-stream", none, none⟩ : ResourceInfo))]
        (getResourceIdentityFromURL (ResourceLink.mk styleFragURL "style.css#frag").canonicalURL).href
      = some ⟨some "application/octet-stream", none, none⟩ ∧
    isBrokenLink true [("file:///style.css", ⟨some "application/octet-stream", none, none⟩)]
      ⟨styleFragURL, "style.css#frag"⟩ = false :=
  ⟨by decide,
   by
    have h := claim4_fragment_requires_recorded_ids
      [("file:///style.css", ⟨some "application/octet-stream", none, none⟩)]
      ⟨styleFragURL, "style.css#frag"⟩ ⟨some "application/octet-stream", none, none⟩
      (by decide) (by decide) (by decide)
    simpa using h⟩

/-! Claim C6. -/

/-- Counterexample to C6 as stated: the `mailto:` reference extracted from
`index.html` is neither enqueued NOR recorded on the links list — the claim
says it should still be recorded with its canonical form and original
text. -/
theorem claim6_counterexample :
    crawlAsync protoHandlers protoResolve [indexURL] {} 3
      = .ok [("file:///index.html",
               ⟨some "text/html", some [⟨styleURL, "style.css"⟩], none⟩),
             ("file:///style.css", ⟨some "application/octet-stream", none, none⟩)] ∧
    (ResourceLink.mk mailtoURL "mailto:x@y") ∉ [ResourceLink.mk styleURL "style.css"] :=
  ⟨rfl, by decide⟩

/-- Claim C6 (amended): a raw link reference whose resolved absolute URL has
a protocol outside the supported set is skipped entirely by the link loop —
neither recorded on the links list nor enqueued (the state is unchanged);
a reference with a supported protocol is recorded (canonical form plus
original text) and then passed to the discovery gate at depth + 1. -/
theorem claim6_unsupported_protocol_skipped (resolve : ResolveURL) (cfg : CrawlConfig)
    (key : String) (baseURL : URL) (depth : Nat) (href : String) (rest : List String)
    (st : CrawlState) (url : URL) (hres : resolve href baseURL = some url) :
    (allowedProtocols.contains url.protocol = false →
      processLinks resolve cfg key baseURL depth (href :: rest) st
        = processLinks resolve cfg key baseURL depth rest st) ∧
    (allowedProtocols.contains url.protocol = true →
      processLinks resolve cfg key baseURL depth (href :: rest) st
        = processLinks resolve cfg key baseURL depth rest
            (enqueueURLIfNeeded url cfg (appendResourceLink key ⟨url, href⟩ st) (depth + 1))) := by
  constructor
  · intro h
    have h2 : url.protocol ∉ allowedProtocols := by simpa using h
    simp [processLinks, hres, h2]
  · intro h
    have h2 : url.protocol ∈ allowedProtocols := by simpa using h
    simp [processLinks, hres, h2]

/-! Drain and seed lemmas. -/

theorem inv_drainTaskQueue (handlers : CrawlHandlers) (resolve : ResolveURL)
    (cfg : CrawlConfig) (fuel : Nat) (st : CrawlState) (hinv : CrawlStateInv cfg st) :
    CrawlStateInv cfg (drainTaskQueue handlers resolve cfg fuel st) := by
  induction fuel generalizing st with
  | zero => exact hinv
  | succ n ih =>
    cases hq : st.queue with
    | nil => simpa [drainTaskQueue, hq] using hinv
    | cons href rest =>
      simp only [drainTaskQueue, hq]
      exact ih _ (step_processWorkItem handlers resolve cfg href rest st hinv hq).1

theorem drainTaskQueue_of_empty (handlers : CrawlHandlers) (resolve : ResolveURL)
    (cfg : CrawlConfig) (fuel : Nat) (st : CrawlState) (h : st.queue = []) :
    drainTaskQueue handlers resolve cfg fuel st = st := by
  cases fuel with
  | zero => rfl
  | succ n => simp [drainTaskQueue, h]

theorem drainTaskQueue_mono (handlers : CrawlHandlers) (resolve : ResolveURL)
    (cfg : CrawlConfig) :
    ∀ (f1 f2 : Nat) (st : CrawlState), f1 ≤ f2 →
      (drainTaskQueue handlers resolve cfg f1 st).queue = [] →
      drainTaskQueue handlers resolve cfg f2 st = drainTaskQueue handlers resolve cfg f1 st := by
  intro f1
  induction f1 with
  | zero =>
    intro f2 st _ hdr
    exact drainTaskQueue_of_empty _ _ _ _ _ hdr
  | succ n ih =>
    intro f2 st hle hdr
    cases hq : st.queue with
    | nil =>
      rw [drainTaskQueue_of_empty _ _ _ _ _ hq, drainTaskQueue_of_empty _ _ _ _ _ hq]
    | cons href rest =>
      obtain ⟨m, rfl⟩ : ∃ m, f2 = m + 1 := ⟨f2 - 1, by omega⟩
      have hle2 : n ≤ m := by omega
      simp only [drainTaskQueue, hq] at hdr ⊢
      exact ih m _ hle2 hdr

theorem drainTaskQueue_drains (handlers : CrawlHandlers) (resolve : ResolveURL)
    (cfg : CrawlConfig) (U : Finset String)
    (hclosed : ∀ u : URL, (getResourceIdentityFromURL u).href ∈ U →
      ∀ k ∈ resourceLinkKeys handlers resolve cfg.recordIds u, k ∈ U) :
    ∀ (fuel : Nat) (st : CrawlState), CrawlStateInv cfg st → UKeysInv U st →
      crawlMeasure U st ≤ fuel →
      (drainTaskQueue handlers resolve cfg fuel st).queue = [] := by
  intro fuel
  induction fuel with
  | zero =>
    intro st _ _ hμ
    have h0 : st.queue.length = 0 := by
      unfold crawlMeasure at hμ
      omega
    exact List.length_eq_zero.mp h0
  | succ n ih =>
    intro st hinv hU hμ
    cases hq : st.queue with
    | nil =>
      rw [drainTaskQueue_of_empty _ _ _ _ _ hq]
      exact hq
    | cons href rest =>
      simp only [drainTaskQueue, hq]
      obtain ⟨hinv2, hUfun⟩ := step_processWorkItem handlers resolve cfg href rest st hinv hq
      obtain ⟨hU2, hμ2⟩ := hUfun U hU hclosed
      exact ih _ hinv2 hU2 (by omega)

theorem inv_seedCrawlState (cfg : CrawlConfig) (urls : List URL) :
    CrawlStateInv cfg (seedCrawlState cfg urls) := by
  unfold seedCrawlState
  suffices h : ∀ (st : CrawlState), CrawlStateInv cfg st →
      CrawlStateInv cfg (urls.foldl (fun st u => enqueueURLIfNeeded u cfg st 0) st) by
    exact h emptyCrawlState (inv_emptyCrawlState cfg)
  induction urls with
  | nil => exact fun st h => h
  | cons u rest ih =>
    intro st h
    exact ih _ (inv_enqueueURLIfNeeded u 0 h)

theorem seed_ukeys_measure (cfg : CrawlConfig) (urls : List URL) (U : Finset String)
    (hentries : ∀ u ∈ urls, (getResourceIdentityFromURL u).href ∈ U) :
    UKeysInv U (seedCrawlState cfg urls) ∧
    crawlMeasure U (seedCrawlState cfg urls) ≤ 2 * U.card := by
  unfold seedCrawlState
  suffices h : ∀ (st : CrawlState), UKeysInv U st →
      UKeysInv U (urls.foldl (fun st u => enqueueURLIfNeeded u cfg st 0) st) ∧
      crawlMeasure U (urls.foldl (fun st u => enqueueURLIfNeeded u cfg st 0) st)
        ≤ crawlMeasure U st by
    have hempty : UKeysInv U emptyCrawlState := by
      intro p hp
      simp [emptyCrawlState] at hp
    have h2 := h emptyCrawlState hempty
    refine ⟨h2.1, le_trans h2.2 (le_of_eq ?_)⟩
    have hundis : undiscoveredKeys U emptyCrawlState = U := by
      unfold undiscoveredKeys
      apply Finset.filter_true_of_mem
      intro x _
      rfl
    unfold crawlMeasure
    rw [hundis]
    simp [emptyCrawlState]
  induction urls generalizing U with
  | nil => exact fun st h => ⟨h, le_refl _⟩
  | cons u rest ih =>
    intro st h
    have hu : (getResourceIdentityFromURL u).href ∈ U := hentries u (List.mem_cons_self _ _)
    have hrest : ∀ v ∈ rest, (getResourceIdentityFromURL v).href ∈ U :=
      fun v hv => hentries v (List.mem_cons_of_mem _ hv)
    obtain ⟨hU2, hμ2⟩ := ih U hrest (enqueueURLIfNeeded u cfg st 0)
      (ukeys_enqueueURLIfNeeded u 0 hu h)
    exact ⟨hU2, le_trans hμ2 (measure_enqueueURLIfNeeded U u 0 hu)⟩

/-- Deconstruction of a successful `crawlAsyncFull` run. -/
theorem crawlAsyncFull_ok {handlers : CrawlHandlers} {resolve : ResolveURL}
    {urls : List URL} {options : CrawlOptions} {fuel : Nat} {st : CrawlState}
    (h : crawlAsyncFull handlers resolve urls options fuel = .ok st) :
    (urls = [] ∧ st = emptyCrawlState) ∨
    ∃ first rest, urls = first :: rest ∧
      st = drainTaskQueue handlers resolve (mkCrawlConfig (derivedBase options first) options)
        fuel (seedCrawlState (mkCrawlConfig (derivedBase options first) options) urls) := by
  cases urls with
  | nil =>
    left
    refine ⟨rfl, ?_⟩
    have h2 : (Except.ok emptyCrawlState : Except CrawlFailure CrawlState) = Except.ok st := h
    injection h2 with h3
    exact h3.symm
  | cons first rest =>
    right
    refine ⟨first, rest, rfl, ?_⟩
    simp only [crawlAsyncFull] at h
    by_cases h1 : hasBaseMismatch options (first :: rest) first = true
    · rw [if_pos h1] at h
      cases h
    · rw [if_neg h1] at h
      by_cases h2 : hasEntryOutsideBase options (first :: rest) first = true
      · rw [if_pos h2] at h
        cases h
      · rw [if_neg h2] at h
        by_cases h3 : hasBadMaxConcurrency options = true
        · rw [if_pos h3] at h
          cases h
        · rw [if_neg h3] at h
          injection h with h4
          exact h4.symm

/-! Claim C1. -/

/-- Claim C1: discovery is idempotent per canonical key.  Whenever
`enqueueURLIfNeeded` is invoked with a URL whose canonical key is already
present in the resource table, the whole crawl state — resource table and
task queue included — is left unchanged; consequently (second part), in any
state reachable by a crawl run the resource table holds at most one record
per canonical key and the pending queue holds at most one work item per
key. -/
theorem claim1_enqueue_dedup (u : URL) (cfg : CrawlConfig) (st : CrawlState) (d : Nat)
    (hpresent : containsKey st.resources (getResourceIdentityFromURL u).href = true) :
    enqueueURLIfNeeded u cfg st d = st ∧
    ∀ (handlers : CrawlHandlers) (resolve : ResolveURL) (urls : List URL)
      (options : CrawlOptions) (fuel : Nat) (final : CrawlState),
      crawlAsyncFull handlers resolve urls options fuel = .ok final →
      (final.resources.map Prod.fst).Nodup ∧ final.queue.Nodup := by
  constructor
  · simp [enqueueURLIfNeeded, hpresent]
  · intro handlers resolve urls options fuel final hok
    rcases crawlAsyncFull_ok hok with ⟨-, rfl⟩ | ⟨first, rest, -, rfl⟩
    · simp [emptyCrawlState]
    · have hinv := inv_drainTaskQueue handlers resolve
        (mkCrawlConfig (derivedBase options first) options) fuel
        (seedCrawlState (mkCrawlConfig (derivedBase options first) options) urls)
        (inv_seedCrawlState _ urls)
      exact ⟨hinv.keys_nodup, hinv.queue_nodup⟩

/-- Witness for C1: re-enqueueing the already-seeded entry point changes
nothing. -/
theorem claim1_enqueue_dedup_witness :
    containsKey (seedCrawlState pdConfig [indexURL]).resources
        (getResourceIdentityFromURL indexURL).href = true ∧
    (enqueueURLIfNeeded indexURL pdConfig (seedCrawlState pdConfig [indexURL]) 0
        = seedCrawlState pdConfig [indexURL] ∧
     ∀ (handlers : CrawlHandlers) (resolve : ResolveURL) (urls : List URL)
       (options : CrawlOptions) (fuel : Nat) (final : CrawlState),
       crawlAsyncFull handlers resolve urls options fuel = .ok final →
       (final.resources.map Prod.fst).Nodup ∧ final.queue.Nodup) :=
  ⟨by decide,
   claim1_enqueue_dedup indexURL pdConfig (seedCrawlState pdConfig [indexURL]) 0 (by decide)⟩

/-! Claim C5. -/

/-- Claim C5: for a crawl run with a depth limit `D`, once the queue has
drained, every resource whose recorded depth is at least `D` was not parsed
(its record has no `links` and no `ids`), parsing happened only strictly
below `D`, and every resource — whatever its depth — had its content type
looked up (`getContentTypeAsync` was invoked for it, as witnessed by the
fetch log). -/
theorem claim5_depth_limit (handlers : CrawlHandlers) (resolve : ResolveURL)
    (urls : List URL) (options : CrawlOptions) (D : Int) (fuel : Nat) (final : CrawlState)
    (hD : options.depth = some D)
    (hok : crawlAsyncFull handlers resolve urls options fuel = .ok final)
    (hdrained : final.queue = []) :
    ∀ p ∈ final.resources,
      (D ≤ (p.2.depth : Int) → p.2.links = none ∧ p.2.ids = none) ∧
      ((p.2.links ≠ none ∨ p.2.ids ≠ none) → (p.2.depth : Int) < D) ∧
      (FetchKind.contentType, p.1) ∈ final.fetchLog := by
  rcases crawlAsyncFull_ok hok with ⟨-, rfl⟩ | ⟨first, rest, -, rfl⟩
  · intro p hp
    simp [emptyCrawlState] at hp
  · intro p hp
    have hinv := inv_drainTaskQueue handlers resolve
      (mkCrawlConfig (derivedBase options first) options) fuel
      (seedCrawlState (mkCrawlConfig (derivedBase options first) options) urls)
      (inv_seedCrawlState _ urls)
    have hcfg : (mkCrawlConfig (derivedBase options first) options).maxDepth = some D := by
      simp [mkCrawlConfig, hD]
    have hlt : (p.2.links ≠ none ∨ p.2.ids ≠ none) → (p.2.depth : Int) < D := by
      intro hcond
      have h2 := hinv.parsed_depth p hp hcond
      rw [hcfg] at h2
      unfold depthLtMax at h2
      exact of_decide_eq_true h2
    refine ⟨?_, hlt, ?_⟩
    · intro hDle
      constructor
      · by_contra hl
        have h2 := hlt (Or.inl hl)
        omega
      · by_contra hl
        have h2 := hlt (Or.inr hl)
        omega
    · have h3 := hinv.fetched_or_queued p hp
      rw [hdrained] at h3
      simpa using h3

/-- Witness for C5: a depth-0 crawl resolves the entry's content type but
does not parse it. -/
theorem claim5_depth_limit_witness :
    CrawlOptions.depth { depth := some 0 } = some 0 ∧
    crawlAsyncFull depthHandlers depthResolve [indexURL] { depth := some 0 } 3
      = .ok ⟨[("file:///index.html", ⟨indexURL, 0, true, some "text/html", none, none⟩)],
             [], [], [(FetchKind.contentType, "file:///index.html")]⟩ ∧
    ∀ p ∈ (⟨[("file:///index.html", ⟨indexURL, 0, true, some "text/html", none, none⟩)],
             [], [], [(FetchKind.contentType, "file:///index.html")]⟩ : CrawlState).resources,
      ((0 : Int) ≤ (p.2.depth : Int) → p.2.links = none ∧ p.2.ids = none) ∧
      ((p.2.links ≠ none ∨ p.2.ids ≠ none) → (p.2.depth : Int) < 0) ∧
      (FetchKind.contentType, p.1) ∈
        (⟨[("file:///index.html", ⟨indexURL, 0, true, some "text/html", none, none⟩)],
          [], [], [(FetchKind.contentType, "file:///index.html")]⟩ : CrawlState).fetchLog :=
  ⟨rfl, rfl,
   claim5_depth_limit depthHandlers depthResolve [indexURL] { depth := some 0 } 0 3 _
     rfl rfl rfl⟩

/-! Claim C2. -/

theorem mutual_closed : ∀ u : URL,
    (getResourceIdentityFromURL u).href ∈ mutualUniverse →
    ∀ k ∈ resourceLinkKeys mutualHandlers mutualResolve false u, k ∈ mutualUniverse := by
  intro u hu k hk
  by_cases h1 : u = indexURL
  · subst h1
    have h2 : resourceLinkKeys mutualHandlers mutualResolve false indexURL
        = ["file:///other.html"] := by decide
    rw [h2] at hk
    rw [List.mem_singleton] at hk
    rw [hk]
    decide
  · by_cases h2 : u = otherURL
    · subst h2
      have h3 : resourceLinkKeys mutualHandlers mutualResolve false otherURL
          = ["file:///index.html"] := by decide
      rw [h3] at hk
      rw [List.mem_singleton] at hk
      rw [hk]
      decide
    · have hgc : mutualHandlers.getContentTypeAsync u = .notFound := by
        simp [mutualHandlers, h1, h2]
      simp [resourceLinkKeys, hgc] at hk

/-- Claim C2: the crawl terminates on every finite link graph.  Given a
finite universe `U` of canonical keys containing the entry points and closed
under link discovery (`resourceLinkKeys`), any fuel of at least `2 * U.card`
fully drains the task queue — the pending queue and the (sequentially
modelled) in-flight work are both exhausted, including work items enqueued
transitively — and giving more fuel does not change the result.  Moreover,
in the concrete mutual-link world (end-to-end scenario 4), the crawl
completes and each of the two records lists the other as a link. -/
theorem claim2_crawl_termination (handlers : CrawlHandlers) (resolve : ResolveURL)
    (urls : List URL) (options : CrawlOptions) (U : Finset String) (fuel : Nat)
    (hentries : ∀ u ∈ urls, (getResourceIdentityFromURL u).href ∈ U)
    (hclosed : ∀ u : URL, (getResourceIdentityFromURL u).href ∈ U →
      ∀ k ∈ resourceLinkKeys handlers resolve (options.recordsIds.getD false) u, k ∈ U)
    (hfuel : 2 * U.card ≤ fuel) :
    drainedResult (crawlAsyncFull handlers resolve urls options fuel) = true ∧
    crawlAsyncFull handlers resolve urls options fuel
      = crawlAsyncFull handlers resolve urls options (2 * U.card) ∧
    crawlAsync mutualHandlers mutualResolve [indexURL] {} 4 = .ok mutualExpected := by
  refine ⟨?_, ?_, rfl⟩
  · cases urls with
    | nil => rfl
    | cons first rest =>
      simp only [crawlAsyncFull]
      by_cases h1 : hasBaseMismatch options (first :: rest) first = true
      · rw [if_pos h1]
        rfl
      · rw [if_neg h1]
        by_cases h2 : hasEntryOutsideBase options (first :: rest) first = true
        · rw [if_pos h2]
          rfl
        · rw [if_neg h2]
          by_cases h3 : hasBadMaxConcurrency options = true
          · rw [if_pos h3]
            rfl
          · rw [if_neg h3]
            have hseed := seed_ukeys_measure (mkCrawlConfig (derivedBase options first) options)
              (first :: rest) U hentries
            have hdr := drainTaskQueue_drains handlers resolve
              (mkCrawlConfig (derivedBase options first) options) U hclosed fuel
              (seedCrawlState (mkCrawlConfig (derivedBase options first) options) (first :: rest))
              (inv_seedCrawlState _ _) hseed.1 (le_trans hseed.2 hfuel)
            simp [drainedResult, hdr]
  · cases urls with
    | nil => rfl
    | cons first rest =>
      simp only [crawlAsyncFull]
      by_cases h1 : hasBaseMismatch options (first :: rest) first = true
      · simp [h1]
      · by_cases h2 : hasEntryOutsideBase options (first :: rest) first = true
        · simp [h1, h2]
        · by_cases h3 : hasBadMaxConcurrency options = true
          · simp [h1, h2, h3]
          · simp only [if_neg h1, if_neg h2, if_neg h3]
            have hseed := seed_ukeys_measure (mkCrawlConfig (derivedBase options first) options)
              (first :: rest) U hentries
            have hdr := drainTaskQueue_drains handlers resolve
              (mkCrawlConfig (derivedBase options first) options) U hclosed (2 * U.card)
              (seedCrawlState (mkCrawlConfig (derivedBase options first) options) (first :: rest))
              (inv_seedCrawlState _ _) hseed.1 hseed.2
            rw [drainTaskQueue_mono handlers resolve _ (2 * U.card) fuel _ hfuel hdr]

/-- Witness for C2 at the mutual-link world. -/
theorem claim2_crawl_termination_witness :
    drainedResult (crawlAsyncFull mutualHandlers mutualResolve [indexURL] {} 4) = true ∧
    crawlAsyncFull mutualHandlers mutualResolve [indexURL] {} 4
      = crawlAsyncFull mutualHandlers mutualResolve [indexURL] {} (2 * mutualUniverse.card) ∧
    crawlAsync mutualHandlers mutualResolve [indexURL] {} 4 = .ok mutualExpected :=
  claim2_crawl_termination mutualHandlers mutualResolve [indexURL] {} mutualUniverse 4
    (by decide) mutual_closed (by decide)

/-- Witness for the amended C6 at the `mailto:` reference. -/
theorem claim6_unsupported_protocol_skipped_witness :
    protoResolve "mailto:x@y" indexURL = some mailtoURL ∧
    ((allowedProtocols.contains mailtoURL.protocol = false →
      processLinks protoResolve pdConfig "file:///index.html" indexURL 0 ["mailto:x@y"]
          emptyCrawlState
        = processLinks protoResolve pdConfig "file:///index.html" indexURL 0 [] emptyCrawlState) ∧
     (allowedProtocols.contains mailtoURL.protocol = true →
      processLinks protoResolve pdConfig "file:///index.html" indexURL 0 ["mailto:x@y"]
          emptyCrawlState
        = processLinks protoResolve pdConfig "file:///index.html" indexURL 0 []
            (enqueueURLIfNeeded mailtoURL pdConfig
              (appendResourceLink "file:///index.html" ⟨mailtoURL, "mailto:x@y"⟩ emptyCrawlState)
              1))) :=
  ⟨by decide,
   claim6_unsupported_protocol_skipped protoResolve pdConfig "file:///index.html" indexURL 0
     "mailto:x@y" [] emptyCrawlState mailtoURL (by decide)⟩

end LinkCheckerModel
